import Mathlib

/-!
Verification of the booky text-analysis library.

Strings are modelled as lists of Unicode scalar values (`Str := List Char`),
matching Rust `&str` at the character level; byte-level operations
(`str::len`, byte indices) are recovered through the UTF-8 encoding length
of each character.  Rust's Unicode character classification tables
(`char::is_uppercase`, `char::to_lowercase`, `char::is_alphabetic`,
`char::is_alphanumeric`) are modelled on the ASCII and Latin letter ranges
exercised by this development, on which the full Unicode tables agree;
`char::is_whitespace` and `char::is_control` are modelled completely.
-/

set_option autoImplicit false

namespace Booky

/-- Rust strings viewed as lists of characters. -/
abbrev Str := List Char

/-- Convert a Lean string literal to the character-list model. -/
def toStr (s : String) : Str := s.toList

/-- Model of Rust `char::is_ascii`. -/
def isAsciiChar (c : Char) : Bool := c.toNat < 128

/-- Model of Rust `char::is_ascii_digit`. -/
def isAsciiDigit (c : Char) : Bool := 48 ≤ c.toNat && c.toNat ≤ 57

/-- Model of Rust `char::is_uppercase` on the ASCII and Latin-1 ranges used
here (uppercase ASCII letters and the Latin-1 capitals except the
multiplication sign). -/
def isUppercaseChar (c : Char) : Bool :=
  (65 ≤ c.toNat && c.toNat ≤ 90) ||
    (0xC0 ≤ c.toNat && c.toNat ≤ 0xDE && c.toNat ≠ 0xD7)

/-- Model of Rust `char::is_lowercase` on the ASCII and Latin-1 ranges used
here (lowercase ASCII letters and the Latin-1 small letters except the
division sign). -/
def isLowercaseChar (c : Char) : Bool :=
  (97 ≤ c.toNat && c.toNat ≤ 122) ||
    (0xDF ≤ c.toNat && c.toNat ≤ 0xFF && c.toNat ≠ 0xF7)

/-- Model of Rust `char::is_alphabetic` on the ASCII, Latin-1 and Latin
Extended-A ranges used here. -/
def isAlphabeticChar (c : Char) : Bool :=
  isUppercaseChar c || isLowercaseChar c ||
    (0x100 ≤ c.toNat && c.toNat ≤ 0x17F)

/-- Model of Rust `char::is_alphanumeric` (alphabetic or numeric; the
numeric characters appearing here are the ASCII digits). -/
def isAlphanumericChar (c : Char) : Bool :=
  isAlphabeticChar c || isAsciiDigit c

/-- Model of Rust `char::to_lowercase` on the ASCII and Latin-1 ranges used
here, where the Unicode mapping is single-character: uppercase ASCII and
Latin-1 capitals shift down by 0x20, everything else is unchanged. -/
def charToLower (c : Char) : Char :=
  if 65 ≤ c.toNat && c.toNat ≤ 90 then Char.ofNat (c.toNat + 32)
  else if 0xC0 ≤ c.toNat && c.toNat ≤ 0xDE && c.toNat ≠ 0xD7 then
    Char.ofNat (c.toNat + 32)
  else c

/-- Model of Rust `str::to_lowercase`. -/
def toLowercase (s : Str) : Str := s.map charToLower

/-- Model of Rust `char::is_whitespace` (the complete Unicode `White_Space`
set). -/
def isWhitespaceChar (c : Char) : Bool :=
  let n := c.toNat
  (0x09 ≤ n && n ≤ 0x0D) || n = 0x20 || n = 0x85 || n = 0xA0 ||
    n = 0x1680 || (0x2000 ≤ n && n ≤ 0x200A) || n = 0x2028 ||
    n = 0x2029 || n = 0x202F || n = 0x205F || n = 0x3000

/-- Model of Rust `char::is_control` (the complete set: C0 and C1 control
codes and DEL). -/
def isControlChar (c : Char) : Bool :=
  c.toNat ≤ 0x1F || (0x7F ≤ c.toNat && c.toNat ≤ 0x9F)

/-- UTF-8 encoding length of a character, in bytes. -/
def utf8CharLen (c : Char) : Nat :=
  if c.toNat < 0x80 then 1
  else if c.toNat < 0x800 then 2
  else if c.toNat < 0x10000 then 3
  else 4

/-- Byte length of a string (Rust `str::len`). -/
def byteLen (s : Str) : Nat := (s.map utf8CharLen).sum

/-- Model of Rust `str::strip_suffix` at the character level. -/
def stripSuf (w suf : Str) : Option Str :=
  if suf.isSuffixOf w then some (w.take (w.length - suf.length)) else none

/-- Model of Rust `str::strip_prefix` (string pattern) at the character
level. -/
def stripPre (w pre : Str) : Option Str :=
  if pre.isPrefixOf w then some (w.drop pre.length) else none

/-- Model of Rust `char::to_ascii_lowercase`. -/
def toAsciiLower (c : Char) : Char :=
  if 65 ≤ c.toNat && c.toNat ≤ 90 then Char.ofNat (c.toNat + 32) else c

/-!  Embedding of `src/kind.rs`. -/

namespace KindM

/-- Word kind (`kind.rs`, enum `Kind`). -/
inductive Kind where
  | lexicon
  | foreign
  | ordinal
  | roman
  | number
  | acronym
  | proper
  | symbol
  | unknown
deriving DecidableEq, Repr, Inhabited

/-- Check if a character is an apostrophe (`kind.rs::is_apostrophe`):
U+0027, U+02BC, U+2019 or U+FF07. -/
def isApostrophe (c : Char) : Bool :=
  c.toNat = 0x27 || c.toNat = 0x2BC || c.toNat = 0x2019 || c.toNat = 0xFF07

/-- Check if a word is foreign (`kind.rs::is_foreign`). -/
def isForeign (w : Str) : Bool :=
  w.any fun c => isAlphabeticChar c && !isAsciiChar c && !isApostrophe c

/-- Ordinal suffixes (`kind.rs::ORD_SUFFIXES`). -/
def ordSuffixes : List Str :=
  [toStr "1st", toStr "1ST", toStr "2nd", toStr "2ND",
   toStr "3rd", toStr "3RD", toStr "th", toStr "TH"]

/-- The loop body of `kind.rs::is_ordinal_number`: scan the suffix table in
order; at the first suffix that strips, return whether the remaining head
is all ASCII digits. -/
def ordinalScan : List Str → Str → Bool
  | [], _ => false
  | suf :: rest, w =>
    match stripSuf w suf with
    | some p => p.all isAsciiDigit
    | none => ordinalScan rest w

/-- Check if a string is an ordinal number (`kind.rs::is_ordinal_number`). -/
def isOrdinalNumber (w : Str) : Bool :=
  if 3 ≤ w.length then ordinalScan ordSuffixes w else false

/-- Uppercase roman numerals (`kind.rs::ROMAN_UPPER`). -/
def romanUpper : Str := toStr "IVXLCDM"

/-- Lowercase roman numerals (`kind.rs::ROMAN_LOWER`). -/
def romanLower : Str := toStr "ivxlcdm"

/-- Check if a string is a roman numeral (`kind.rs::is_roman_numeral`). -/
def isRomanNumeral (w : Str) : Bool :=
  !w.isEmpty &&
    (w.all (fun c => romanUpper.contains c) ||
     w.all (fun c => romanLower.contains c))

/-- Check if a word contains a number (`kind.rs::is_number`). -/
def isNumber (w : Str) : Bool := w.any isAsciiDigit

/-- Check if a word is an acronym (`kind.rs::is_acronym`). -/
def isAcronym (w : Str) : Bool :=
  2 ≤ w.length && w.all fun c => isUppercaseChar c || c = '.'

/-- Check if a word is probably proper (`kind.rs::is_probably_proper`). -/
def isProbablyProper (w : Str) : Bool :=
  match w with
  | [] => false
  | c :: rest => isUppercaseChar c && rest.any isLowercaseChar

/-- Classify a word (`kind.rs`, `impl From<&str> for Kind`). -/
def kindFrom (w : Str) : Kind :=
  if isForeign w then .foreign
  else if isOrdinalNumber w then .ordinal
  else if isRomanNumeral w then .roman
  else if isNumber w then .number
  else if isAcronym w then .acronym
  else if isProbablyProper w then .proper
  else if w.length = 1 then .symbol
  else .unknown

end KindM

/-! Embedding of `src/word.rs`: the deunicode table and the irregular-form
codec. -/

namespace Word

/-- Transliteration entries for the non-ASCII characters exercised in this
development, modelled from the external `deunicode` crate. -/
def deunicodeTable : List (Char × Str) :=
  [('à', toStr "a"), ('á', toStr "a"), ('â', toStr "a"), ('ä', toStr "a"),
   ('ç', toStr "c"), ('è', toStr "e"), ('é', toStr "e"), ('ê', toStr "e"),
   ('ë', toStr "e"), ('î', toStr "i"), ('ï', toStr "i"), ('ñ', toStr "n"),
   ('ò', toStr "o"), ('ô', toStr "o"), ('ö', toStr "o"), ('ù', toStr "u"),
   ('û', toStr "u"), ('ü', toStr "u"), ('ý', toStr "y"),
   ('æ', toStr "ae"), ('œ', toStr "oe"), ('’', toStr "'")]

/-- Model of `deunicode::deunicode_char` (external crate): ASCII characters
transliterate to themselves, the table above covers the non-ASCII
characters used here, and characters with no known transliteration (such
as the Private Use Area) give `none`. -/
def deunicodeChar (c : Char) : Option Str :=
  if isAsciiChar c then some [c]
  else (deunicodeTable.find? fun p => p.1 = c).map Prod.snd

/-- Model of Rust `str::rsplit_once` with a character pattern: split
around the last occurrence. -/
def rsplitOnceChar : Str → Char → Option (Str × Str)
  | [], _ => none
  | a :: rest, c =>
    match rsplitOnceChar rest c with
    | some (pre, post) => some (a :: pre, post)
    | none => if a = c then some ([], rest) else none

/-- Model of Rust `str::rsplit_once` with a string pattern: split around
the last occurrence of the substring. -/
def rsplitOnceStr : Str → Str → Option (Str × Str)
  | [], pat => if pat.isEmpty then some ([], []) else none
  | a :: rest, pat =>
    match rsplitOnceStr rest pat with
    | some (pre, post) => some (a :: pre, post)
    | none =>
      if pat.isPrefixOf (a :: rest) then
        some ([], (a :: rest).drop pat.length)
      else none

/-- Decode an irregular word form (`word.rs::decode_irregular`): a form
`-<suffix>` with nonempty suffix is glued after the last occurrence in the
lemma of the suffix's first character (falling back to that character's
transliteration); any other form is returned verbatim. -/
def decodeIrregular (lem form : Str) : Option Str :=
  match form with
  | f0 :: ch :: rest =>
    if f0 = '-' then
      match rsplitOnceChar lem ch with
      | some (base, _ending) => some (base ++ ch :: rest)
      | none =>
        match deunicodeChar ch with
        | some alt =>
          if alt.head? = some ch then none
          else
            match rsplitOnceStr lem alt with
            | some (base, _ending) => some (base ++ alt ++ rest)
            | none => none
        | none => none
    else some (f0 :: ch :: rest)
  | _ => some form

/-- One candidate split position for `word.rs::encode_irregular`, at the
byte index reached after `k` characters of the lem: the two strings
agree on those characters, the byte index lies in the loop range
`3..lem.len()`, the next character `c` of the lem is also the next
character of the form, and `c` does not occur again in the rest of the
lem. -/
def encodeCandidate (lem form : Str) (k : Nat) : Bool :=
  lem.take k = form.take k &&
  3 ≤ byteLen (lem.take k) && byteLen (lem.take k) < byteLen lem &&
  (match (lem.drop k).head?, (form.drop k).head? with
   | some c, some c' => c = c' && !((lem.drop (k + 1)).contains c)
   | _, _ => false)

/-- The final value of `pos` in `word.rs::encode_irregular`: the last
valid candidate position, scanning upward. -/
def encodePos (lem form : Str) : Option Nat :=
  (List.range (lem.length + 1)).foldl
    (fun pos k => if encodeCandidate lem form k then some k else pos) none

/-- Encode an irregular word form (`word.rs::encode_irregular`). -/
def encodeIrregular (lem form : Str) : Str :=
  match encodePos lem form with
  | some k => '-' :: form.drop k
  | none => form

/-- Word class (`word.rs::WordClass`). -/
inductive WordClass where
  | adjective
  | adverb
  | conjunction
  | determiner
  | interjection
  | noun
  | preposition
  | pronoun
  | verb
deriving DecidableEq, Repr, Inhabited

/-- Decode a word-class code (`word.rs`, `TryFrom<&str> for WordClass`). -/
def wordClassTryFrom (cl : Str) : Option WordClass :=
  if cl = toStr "N" then some .noun
  else if cl = toStr "V" then some .verb
  else if cl = toStr "A" then some .adjective
  else if cl = toStr "Av" then some .adverb
  else if cl = toStr "P" then some .preposition
  else if cl = toStr "Pn" then some .pronoun
  else if cl = toStr "C" then some .conjunction
  else if cl = toStr "D" then some .determiner
  else if cl = toStr "I" then some .interjection
  else none

/-- Word lexeme (`word.rs::Lexeme`); the field `lem` is the source's
`lemma`. -/
structure Lexeme where
  lem : Str
  wordClass : WordClass
  attr : Str
  irregularForms : List Str
  forms : List Str
deriving DecidableEq, Repr, Inhabited

/-- Check if a character is a vowel (`word.rs::is_vowel`). -/
def isVowel (c : Char) : Bool :=
  c = 'a' || c = 'e' || c = 'i' || c = 'o' || c = 'u' || c = 'y'

/-- Check if a lemma ends in `y` with no other vowel before it
(`word.rs::ends_in_y`). -/
def endsInY (lem : Str) : Bool :=
  (toStr "y").isSuffixOf lem &&
    !((toStr "ay").isSuffixOf lem || (toStr "ey").isSuffixOf lem ||
      (toStr "iy").isSuffixOf lem || (toStr "oy").isSuffixOf lem ||
      (toStr "uy").isSuffixOf lem || (toStr "yy").isSuffixOf lem)

/-- Check if a lemma ends in `e` (`word.rs::ends_in_e`). -/
def endsInE (lem : Str) : Bool :=
  (toStr "e").isSuffixOf lem &&
    !((toStr "ae").isSuffixOf lem || (toStr "ee").isSuffixOf lem ||
      (toStr "ie").isSuffixOf lem || (toStr "oe").isSuffixOf lem ||
      (toStr "ye").isSuffixOf lem)

/-- Model of Rust `str::trim_end_matches` with a character pattern. -/
def trimEndChar (w : Str) (c : Char) : Str :=
  (w.reverse.dropWhile fun x => x = c).reverse

/-- Check for a repeated final consonant (`word.rs::consonant_end_repeat`):
slide a three-character window (treating `qu` as one consonant), reject
`w`/`x` finals and the `ed/en/er/on` suffix exceptions, and report the
final character of a consonant-vowel-consonant tail. -/
def consonantEndRepeat (s : Str) : Option Char :=
  let suffix := s.foldl
    (fun (t : Char × Char × Char) c =>
      if t.2.2 = 'q' && c = 'u' then t else (t.2.1, t.2.2, c))
    (' ', ' ', ' ')
  if suffix.2.2 = 'w' || suffix.2.2 = 'x' then none
  else if (suffix.2.1 = 'e' &&
        (suffix.2.2 = 'd' || suffix.2.2 = 'n' || suffix.2.2 = 'r')) ||
      (suffix.2.1 = 'o' && suffix.2.2 = 'n') then none
  else if !isVowel suffix.1 && isVowel suffix.2.1 && !isVowel suffix.2.2 then
    some suffix.2.2
  else none

/-- The non-`sis` part of `word.rs::noun_plural`. -/
def nounPluralFallback (lem : Str) : Str :=
  if endsInY lem then trimEndChar lem 'y' ++ toStr "ies"
  else if (toStr "s").isSuffixOf lem || (toStr "sh").isSuffixOf lem ||
      (toStr "ch").isSuffixOf lem || (toStr "x").isSuffixOf lem ||
      (toStr "z").isSuffixOf lem then lem ++ toStr "es"
  else lem ++ toStr "s"

/-- Make a regular plural noun (`word.rs::noun_plural`). -/
def nounPlural (lem : Str) : Str :=
  match stripSuf lem (toStr "sis") with
  | some root =>
    if !root.isEmpty then root ++ toStr "ses" else nounPluralFallback lem
  | none => nounPluralFallback lem

/-- Make a regular present verb (`word.rs::verb_present`). -/
def verbPresent (lem : Str) : Str :=
  if endsInY lem then trimEndChar lem 'y' ++ toStr "ies"
  else if (toStr "s").isSuffixOf lem || (toStr "z").isSuffixOf lem then
    match consonantEndRepeat lem with
    | some e => lem ++ [e] ++ toStr "es"
    | none => lem ++ toStr "es"
  else if (toStr "sh").isSuffixOf lem || (toStr "ch").isSuffixOf lem ||
      (toStr "x").isSuffixOf lem then lem ++ toStr "es"
  else lem ++ toStr "s"

/-- Make a regular present-participle verb
(`word.rs::verb_present_participle`). -/
def verbPresentParticiple (lem : Str) : Str :=
  match consonantEndRepeat lem with
  | some e => lem ++ [e] ++ toStr "ing"
  | none =>
    if endsInE lem then trimEndChar lem 'e' ++ toStr "ing"
    else lem ++ toStr "ing"

/-- Make a regular past verb (`word.rs::verb_past`). -/
def verbPast (lem : Str) : Str :=
  match consonantEndRepeat lem with
  | some e => lem ++ [e] ++ toStr "ed"
  | none =>
    if (toStr "e").isSuffixOf lem then lem ++ toStr "d"
    else if endsInY lem then trimEndChar lem 'y' ++ toStr "ied"
    else lem ++ toStr "ed"

/-- Make a regular comparative adjective
(`word.rs::adjective_comparative`). -/
def adjectiveComparative (lem : Str) : Str :=
  if (toStr "e").isSuffixOf lem then lem ++ toStr "r"
  else if endsInY lem then trimEndChar lem 'y' ++ toStr "ier"
  else
    match consonantEndRepeat lem with
    | some e => lem ++ [e] ++ toStr "er"
    | none => lem ++ toStr "er"

/-- Make a regular superlative adjective
(`word.rs::adjective_superlative`). -/
def adjectiveSuperlative (lem : Str) : Str :=
  if (toStr "e").isSuffixOf lem then lem ++ toStr "st"
  else if endsInY lem then trimEndChar lem 'y' ++ toStr "iest"
  else
    match consonantEndRepeat lem with
    | some e => lem ++ [e] ++ toStr "est"
    | none => lem ++ toStr "est"

/-- Count syllables of the lemma (`word.rs::Lexeme::count_syllables`). -/
def countSyllables (lem0 : Str) : Nat :=
  let lem := if endsInE lem0 then trimEndChar lem0 'e' else lem0
  (lem.foldl
    (fun (acc : Nat × Char) c =>
      if isVowel c && !isVowel acc.2 then (acc.1 + 1, c) else (acc.1, c))
    (0, ' ')).1

/-- Check if a noun has a plural form (`word.rs::Lexeme::has_plural`):
false when the attributes carry `s` or `p`. -/
def hasPlural (attr : Str) : Bool :=
  !(attr.any fun a => a = 's' || a = 'p')

/-- Check for the alternate `z => s` spelling attribute
(`word.rs::Lexeme::has_alternate_z`). -/
def hasAlternateZ (attr : Str) : Bool :=
  attr.any fun a => a = 'z'

/-- Build regular inflected forms
(`word.rs::WordClass::build_regular_forms`); the syllable count is taken
on the true lemma, the inflections on the variant. -/
def buildRegularForms (wc : WordClass) (lx : Lexeme) (variant : Str) :
    List Str :=
  match wc with
  | .adjective =>
    if countSyllables lx.lem < 4 then
      [adjectiveComparative variant, adjectiveSuperlative variant]
    else []
  | .noun => if hasPlural lx.attr then [nounPlural variant] else []
  | .verb =>
    [verbPresent variant, verbPresentParticiple variant, verbPast variant]
  | _ => []

/-- One character step of `word.rs::Lexeme::variant_spellings`: on a
transliterable character, push it onto every variant and add the branched
variants (non-identity transliteration, and `e` for `æ`/`œ`); skip a
character with no transliteration. -/
def variantStep (variants : List Str) (ch : Char) : List Str :=
  match deunicodeChar ch with
  | none => variants
  | some alt =>
    let more1 :=
      if alt.head? ≠ some ch then variants.map (fun v => v ++ alt) else []
    let more2 :=
      if ch = 'æ' || ch = 'œ' then variants.map (fun v => v ++ ['e'])
      else []
    (variants.map fun v => v ++ [ch]) ++ more1 ++ more2

/-- Get all variant spellings of the lemma
(`word.rs::Lexeme::variant_spellings`): walk the characters with
`variantStep`; with the `z` attribute every variant is then duplicated
with `z` replaced by `s`. -/
def variantSpellings (lem attr : Str) : List Str :=
  let base := lem.foldl variantStep [[]]
  if hasAlternateZ attr then
    base ++ base.map fun v => v.map fun c => if c = 'z' then 's' else c
  else base

/-- Build the inflected forms contributed by one variant spelling
(`word.rs::Lexeme::build_inflected`): the variant itself, then either the
regular forms or the decoded irregular forms (skipping one equal to the
variant); `none` when an irregular decode fails. -/
def buildInflected (lx : Lexeme) (variant : Str) : Option (List Str) :=
  if lx.irregularForms.isEmpty then
    some (variant :: buildRegularForms lx.wordClass lx variant)
  else
    lx.irregularForms.foldl
      (fun acc f =>
        match acc, decodeIrregular variant f with
        | some fs, some d => some (if d ≠ variant then fs ++ [d] else fs)
        | _, _ => none)
      (some [variant])

/-- Build all inflected forms (`word.rs::Lexeme::build_inflected_forms`):
concatenate each variant's contribution, in variant order. -/
def buildInflectedForms (lx : Lexeme) : Option (List Str) :=
  (variantSpellings lx.lem lx.attr).foldl
    (fun acc v =>
      match acc, buildInflected lx v with
      | some fs, some more => some (fs ++ more)
      | _, _ => none)
    (some [])

/-- Model of Rust `str::split_once` with a character pattern: split around
the first occurrence. -/
def splitOnceChar : Str → Char → Option (Str × Str)
  | [], _ => none
  | a :: rest, c =>
    if a = c then some ([], rest)
    else
      match splitOnceChar rest c with
      | some (pre, post) => some (a :: pre, post)
      | none => none

/-- Parse a lexeme line (`word.rs`, `TryFrom<&str> for Lexeme`). -/
def lexemeTryFrom (line : Str) : Option Lexeme :=
  match line.splitOn ',' with
  | [] => none
  | first :: rest =>
    if first.isEmpty then none
    else
      match splitOnceChar first ':' with
      | none => none
      | some (lemPart, cla) =>
        let wcAttr :=
          match splitOnceChar cla '.' with
          | some (wcs, attrs) => (wcs, attrs)
          | none => (cla, ([] : Str))
        match wordClassTryFrom wcAttr.1 with
        | none => none
        | some wordClass =>
          match rest.foldl
              (fun acc form =>
                match acc, decodeIrregular lemPart form with
                | some fs, some d =>
                  some (fs ++ [encodeIrregular lemPart d])
                | _, _ => none)
              (some []) with
          | none => none
          | some irregularForms =>
            let lx : Lexeme :=
              ⟨lemPart, wordClass, wcAttr.2, irregularForms, []⟩
            match buildInflectedForms lx with
            | none => none
            | some forms =>
              some ⟨lemPart, wordClass, wcAttr.2, irregularForms, forms⟩

end Word

/-! Embedding of `src/lex.rs`: the lexicon and its form index. -/

namespace Lex

/-- Check if a character is an apostrophe (`lex.rs::is_apostrophe`). -/
def isApostrophe (c : Char) : Bool :=
  c.toNat = 0x27 || c.toNat = 0x2BC || c.toNat = 0x2019 || c.toNat = 0xFF07

/-- Make a word to check the lexicon (`lex.rs::make_word`): apostrophes
become the ASCII apostrophe, everything else is lowercased. -/
def makeWord (w : Str) : Str :=
  w.map fun c => if isApostrophe c then Char.ofNat 0x27 else charToLower c

/-- Lexicon of words (`lex.rs::Lexicon`): the lexeme list and the form
index, a hash map modelled as an association list with distinct keys. -/
structure Lexicon where
  words : List Word.Lexeme
  forms : List (Str × List Nat)
deriving DecidableEq, Inhabited

/-- Form-index lookup (`HashMap::get`). -/
def lookupForms : List (Str × List Nat) → Str → Option (List Nat)
  | [], _ => none
  | (k, v) :: rest, key => if k = key then some v else lookupForms rest key

/-- In-place replacement of the value at a key (`HashMap::get_mut`). -/
def replaceForms :
    List (Str × List Nat) → Str → List Nat → List (Str × List Nat)
  | [], _, _ => []
  | (k, v) :: rest, key, nv =>
    if k = key then (k, nv) :: rest else (k, v) :: replaceForms rest key nv

/-- Map insertion (`HashMap::insert`): replace the value at an existing
key, or add the pair. -/
def insertForms (m : List (Str × List Nat)) (k : Str) (v : List Nat) :
    List (Str × List Nat) :=
  match lookupForms m k with
  | some _ => replaceForms m k v
  | none => m ++ [(k, v)]

/-- Insert one word form (`lex.rs::Lexicon::insert_form`): look the raw
form up; push the index onto an existing entry, or insert a fresh entry
keyed by the lowercased form. -/
def insertForm (n : Nat) (m : List (Str × List Nat)) (w : Str) :
    List (Str × List Nat) :=
  match lookupForms m w with
  | some nums => replaceForms m w (nums ++ [n])
  | none => insertForms m (toLowercase w) [n]

/-- Insert a lexeme (`lex.rs::Lexicon::insert`): index every form under
the next word index, then push the lexeme. -/
def insert (lex : Lexicon) (word : Word.Lexeme) : Lexicon :=
  let n := lex.words.length
  ⟨lex.words ++ [word], word.forms.foldl (insertForm n) lex.forms⟩

/-- Check if the lexicon contains a word form
(`lex.rs::Lexicon::contains`). -/
def contains (lex : Lexicon) (w : Str) : Bool :=
  (lookupForms lex.forms (makeWord w)).isSome

/-- Get all lexeme entries holding a word form
(`lex.rs::Lexicon::word_entries`). -/
def wordEntries (lex : Lexicon) (w : Str) : List Word.Lexeme :=
  match lookupForms lex.forms (makeWord w) with
  | some idxs => idxs.map fun i => lex.words.getD i default
  | none => []

/-- The keys of the form index (`lex.rs::Lexicon::forms`, the iterator of
all lowercase forms). -/
def formsKeys (lex : Lexicon) : List Str :=
  lex.forms.map Prod.fst

/-- Build a lexicon by inserting lexemes into the empty one
(`Lexicon::new` followed by `insert` calls, as `make_builtin` does). -/
def mkLexicon (ws : List Word.Lexeme) : Lexicon :=
  ws.foldl insert ⟨[], []⟩

end Lex

/-! Embedding of `src/contractions.rs`: the contraction table and the
work-stack splitter. -/

namespace Contr

/-- Word contraction records (`contractions.rs::Contraction`). -/
inductive Contraction where
  | full (c a b : Str)
  | pre (p ex : Str)
  | suf (s ex : Str)
  | sufReplace (s ex : Str)
deriving DecidableEq, Repr

/-- The contraction table (`contractions.rs::CONTRACTIONS`), in order. -/
def contractions : List Contraction :=
  [.full (toStr "ain’t") (toStr "am") (toStr "not"),
   .full (toStr "can’t") (toStr "can") (toStr "not"),
   .full (toStr "shan’t") (toStr "shall") (toStr "not"),
   .full (toStr "won’t") (toStr "will") (toStr "not"),
   .suf (toStr "n’t") (toStr "not"),
   .suf (toStr "’ve") (toStr "have"),
   .suf (toStr "’ll") (toStr "will"),
   .full (toStr "I’m") (toStr "I") (toStr "am"),
   .suf (toStr "’re") (toStr "are"),
   .full (toStr "he’s") (toStr "he") (toStr "is"),
   .full (toStr "it’s") (toStr "it") (toStr "is"),
   .full (toStr "she’s") (toStr "she") (toStr "is"),
   .full (toStr "that’s") (toStr "that") (toStr "is"),
   .full (toStr "there’s") (toStr "there") (toStr "is"),
   .full (toStr "what’s") (toStr "what") (toStr "is"),
   .full (toStr "who’s") (toStr "who") (toStr "is"),
   .full (toStr "’tis") (toStr "it") (toStr "is"),
   .full (toStr "’twas") (toStr "it") (toStr "was"),
   .full (toStr "’twill") (toStr "it") (toStr "will"),
   .full (toStr "m’dear") (toStr "my") (toStr "dear"),
   .full (toStr "m’lady") (toStr "my") (toStr "lady"),
   .full (toStr "m’lord") (toStr "my") (toStr "lord"),
   .suf (toStr "’d") (toStr "would"),
   .suf (toStr "’s") (toStr ""),
   .sufReplace (toStr "n’") (toStr "ng"),
   .suf (toStr "’") (toStr ""),
   .pre (toStr "’") (toStr "’")]

/-- Check if a contraction part equals a string
(`contractions.rs::equals_contraction`): same character count, and each
pair equal after ASCII lowercasing, or both apostrophes. -/
def equalsContraction (part word : Str) : Bool :=
  part.length = word.length &&
    (part.zip word).all fun pr =>
      toAsciiLower pr.1 = toAsciiLower pr.2 ||
        (Lex.isApostrophe (toAsciiLower pr.1) &&
         Lex.isApostrophe (toAsciiLower pr.2))

/-- Try to expand a contraction (`contractions.rs::Contraction::try_expand`),
returning the words pushed onto the work stack, in push order.  A prefix
needs at least one character after the pattern; a suffix pattern of `k`
characters needs at least `k` characters in the word. -/
def tryExpand (con : Contraction) (word : Str) : Option (List Str) :=
  match con with
  | .full c a b =>
    if equalsContraction c word then some [a, b] else none
  | .pre p ex =>
    if p.length + 1 ≤ word.length then
      if equalsContraction p (word.take p.length) then
        some [word.drop p.length, ex]
      else none
    else none
  | .suf s ex =>
    if s.length ≤ word.length then
      if equalsContraction s (word.drop (word.length - s.length)) then
        some [ex, word.take (word.length - s.length)]
      else none
    else none
  | .sufReplace s ex =>
    if s.length ≤ word.length then
      if equalsContraction s (word.drop (word.length - s.length)) then
        some [word.take (word.length - s.length) ++ ex]
      else none
    else none

/-- Scan the table in order and expand at the first matching record. -/
def findExpand : List Contraction → Str → Option (List Str)
  | [], _ => none
  | con :: rest, w =>
    match tryExpand con w with
    | some ws => some ws
    | none => findExpand rest w

/-- Split one contraction (`contractions.rs::split_contraction`): `some`
of the pushed words at the first matching table record, else `none`. -/
def splitContraction (w : Str) : Option (List Str) :=
  findExpand contractions w

/-- Number of apostrophe characters in a word (termination measure
ingredient for the work-stack loop). -/
def aposCount (w : Str) : Nat :=
  (w.filter fun c => Lex.isApostrophe c).length

/-- Termination measure of one stack word: zero for apostrophe-free words
(which match no table record), otherwise characters plus apostrophes. -/
def wordMeasure (w : Str) : Nat :=
  if aposCount w = 0 then 0 else w.length + aposCount w

/-- Termination measure of the whole work stack. -/
def phi (stack : List Str) : Nat :=
  (stack.map fun x => 3 ^ wordMeasure x).sum

end Contr

/-! Lemmas about `stripSuf` and the ordinal scan. -/

theorem stripSuf_eq_some {w suf p : Str} :
    stripSuf w suf = some p ↔ w = p ++ suf := by
  unfold stripSuf
  constructor
  · intro h
    split at h
    · rename_i hs
      obtain ⟨q, hq⟩ := (List.isSuffixOf_iff_suffix.mp hs)
      cases h
      subst hq
      simp
    · cases h
  · intro h
    subst h
    rw [if_pos]
    · simp
    · exact List.isSuffixOf_iff_suffix.mpr ⟨p, rfl⟩

namespace KindM

theorem ordinalScan_true {L : List Str} {w : Str}
    (h : ordinalScan L w = true) :
    ∃ suf ∈ L, ∃ p, w = p ++ suf ∧ p.all isAsciiDigit = true := by
  induction L with
  | nil => simp [ordinalScan] at h
  | cons suf rest ih =>
    unfold ordinalScan at h
    cases hs : stripSuf w suf with
    | some p =>
      rw [hs] at h
      exact ⟨suf, by simp, p, stripSuf_eq_some.mp hs, h⟩
    | none =>
      rw [hs] at h
      obtain ⟨s, hsL, p, hp, hd⟩ := ih h
      exact ⟨s, by simp [hsL], p, hp, hd⟩

theorem ordinalScan_of_mem {L : List Str} {w suf p : Str}
    (hmem : suf ∈ L) (hw : w = p ++ suf) (hd : p.all isAsciiDigit = true)
    (huniq : ∀ s1 ∈ L, ∀ s2 ∈ L, s1 <:+ s2 → s1 = s2) :
    ordinalScan L w = true := by
  induction L with
  | nil => cases hmem
  | cons s rest ih =>
    unfold ordinalScan
    cases hs : stripSuf w s with
    | some p' =>
      have hw' : w = p' ++ s := stripSuf_eq_some.mp hs
      have hsuf : s = suf := by
        have h1 : s <:+ w := ⟨p', hw'.symm⟩
        have h2 : suf <:+ w := ⟨p, hw.symm⟩
        rcases List.suffix_or_suffix_of_suffix h1 h2 with hc | hc
        · exact huniq s (by simp) suf hmem hc
        · exact (huniq suf hmem s (by simp) hc).symm
      subst hsuf
      have hpp : p' = p := by
        have := hw'.symm.trans hw
        exact List.append_cancel_right this
      rw [hpp]
      exact hd
    | none =>
      have hne : suf ≠ s := by
        intro he
        subst he
        rw [stripSuf_eq_some.mpr hw] at hs
        cases hs
      have hmem' : suf ∈ rest := by
        cases hmem with
        | head => exact absurd rfl hne
        | tail _ h => exact h
      exact ih hmem' fun s1 h1 s2 h2 =>
        huniq s1 (List.mem_cons_of_mem _ h1) s2 (List.mem_cons_of_mem _ h2)

theorem ordSuffixes_no_proper_suffix :
    ∀ s1 ∈ ordSuffixes, ∀ s2 ∈ ordSuffixes, s1 <:+ s2 → s1 = s2 := by
  decide

theorem isOrdinalNumber_iff (w : Str) :
    isOrdinalNumber w = true ↔
      (3 ≤ w.length ∧
        ∃ suf ∈ ordSuffixes, ∃ p, w = p ++ suf ∧ p.all isAsciiDigit = true) := by
  unfold isOrdinalNumber
  by_cases hl : 3 ≤ w.length
  · rw [if_pos hl]
    constructor
    · intro h
      exact ⟨hl, ordinalScan_true h⟩
    · rintro ⟨-, suf, hmem, p, hw, hd⟩
      exact ordinalScan_of_mem hmem hw hd ordSuffixes_no_proper_suffix
  · rw [if_neg hl]
    constructor
    · intro hfalse
      simp at hfalse
    · rintro ⟨h3, -⟩
      exact absurd h3 hl

/-- Claim C6: for every word not matching the Foreign rule, the classifier
returns `Ordinal` exactly when the word has at least 3 characters, ends
with one of the eight ordinal suffixes, and the part before that suffix is
all ASCII digits (rules evaluated in order, first match winning). -/
theorem claim_C6 (w : Str) (h : isForeign w = false) :
    kindFrom w = Kind.ordinal ↔
      (3 ≤ w.length ∧
        ∃ suf ∈ ordSuffixes, ∃ p, w = p ++ suf ∧ p.all isAsciiDigit = true) := by
  rw [← isOrdinalNumber_iff]
  unfold kindFrom
  rw [if_neg (show ¬isForeign w = true by simp [h])]
  by_cases ho : isOrdinalNumber w = true
  · rw [if_pos ho]
    simp [ho]
  · rw [if_neg ho]
    constructor
    · intro hk
      exfalso
      split at hk
      · exact Kind.noConfusion hk
      split at hk
      · exact Kind.noConfusion hk
      split at hk
      · exact Kind.noConfusion hk
      split at hk
      · exact Kind.noConfusion hk
      split at hk
      · exact Kind.noConfusion hk
      · exact Kind.noConfusion hk
    · intro hk
      exact absurd hk ho

/-- Witness for claim C6 at the concrete word `42nd`. -/
theorem claim_C6_witness :
    kindFrom (toStr "42nd") = Kind.ordinal ↔
      (3 ≤ (toStr "42nd").length ∧
        ∃ suf ∈ ordSuffixes, ∃ p,
          toStr "42nd" = p ++ suf ∧ p.all isAsciiDigit = true) :=
  claim_C6 (toStr "42nd") (by decide)

end KindM

/-! Lemmas for claim C2: the irregular-form round trip. -/

namespace Word

theorem rsplitOnceChar_eq_none {s : Str} {c : Char} (h : c ∉ s) :
    rsplitOnceChar s c = none := by
  induction s with
  | nil => rfl
  | cons a rest ih =>
    have ha : a ≠ c := fun he => h (he ▸ List.mem_cons_self a rest)
    have hrest : c ∉ rest := fun hm => h (List.mem_cons_of_mem a hm)
    simp only [rsplitOnceChar, ih hrest, if_neg ha]

theorem rsplitOnceChar_last {c : Char} {b : Str} (hb : c ∉ b) :
    ∀ a : Str, rsplitOnceChar (a ++ c :: b) c = some (a, b) := by
  intro a
  induction a with
  | nil =>
    simp [List.nil_append, rsplitOnceChar, rsplitOnceChar_eq_none hb]
  | cons x a' ih =>
    simp only [List.cons_append, rsplitOnceChar]
    rw [show a'.append (c :: b) = a' ++ c :: b from rfl, ih]

theorem foldl_lastSome (p : Nat → Bool) (l : List Nat) :
    ∀ (acc : Option Nat) (k : Nat),
      (∀ j, acc = some j → p j = true) →
      l.foldl (fun pos k' => if p k' then some k' else pos) acc = some k →
      p k = true := by
  induction l with
  | nil =>
    intro acc k hacc h
    exact hacc k h
  | cons x xs ih =>
    intro acc k hacc h
    rw [List.foldl_cons] at h
    refine ih _ k ?_ h
    intro j hj
    by_cases hx : p x = true
    · rw [if_pos hx] at hj
      cases hj
      exact hx
    · rw [if_neg hx] at hj
      exact hacc j hj

theorem encodePos_candidate {lem form : Str} {k : Nat}
    (h : encodePos lem form = some k) : encodeCandidate lem form k = true :=
  foldl_lastSome _ _ none k (fun j hj => by cases hj) h

theorem encodeCandidate_spec {lem form : Str} {k : Nat}
    (h : encodeCandidate lem form k = true) :
    lem.take k = form.take k ∧
      ∃ c, (lem.drop k).head? = some c ∧ (form.drop k).head? = some c ∧
        c ∉ lem.drop (k + 1) := by
  unfold encodeCandidate at h
  cases hg : (lem.drop k).head? with
  | none =>
    rw [hg] at h
    simp at h
  | some c =>
    rw [hg] at h
    cases hh : (form.drop k).head? with
    | none =>
      rw [hh] at h
      simp at h
    | some c' =>
      rw [hh] at h
      simp only [Bool.and_eq_true, decide_eq_true_eq,
        Bool.not_eq_true'] at h
      obtain ⟨⟨⟨htake, -⟩, -⟩, hcc, hcon⟩ := h
      subst hcc
      refine ⟨htake, c, rfl, rfl, ?_⟩
      simpa using hcon

/-- Claim C2 (amended): for every lemma and every stored form F that does
not itself begin with a dash, decoding the encoding of F against the lemma
succeeds and returns F.  The derivation hypothesis records that F was
accepted while parsing a lexeme line (it is the decoding of some raw form
against the lemma). -/
theorem claim_C2_amended (lem raw F : Str)
    (hder : decodeIrregular lem raw = some F)
    (hdash : F.head? ≠ some '-') :
    decodeIrregular lem (encodeIrregular lem F) = some F := by
  cases hp : encodePos lem F with
  | none =>
    have he : encodeIrregular lem F = F := by
      unfold encodeIrregular
      rw [hp]
    rw [he]
    cases F with
    | nil => rfl
    | cons a F' =>
      cases F' with
      | nil => rfl
      | cons b F'' =>
        have ha : a ≠ '-' := fun he => hdash (by rw [he]; rfl)
        simp only [decodeIrregular, if_neg ha]
  | some k =>
    have he : encodeIrregular lem F = '-' :: F.drop k := by
      unfold encodeIrregular
      rw [hp]
    rw [he]
    obtain ⟨htake, c, hget, hhead, hnot⟩ :=
      encodeCandidate_spec (encodePos_candidate hp)
    obtain ⟨t, hdrop⟩ : ∃ t, F.drop k = c :: t := by
      cases hF : F.drop k with
      | nil =>
        rw [hF] at hhead
        cases hhead
      | cons c' t =>
        rw [hF] at hhead
        cases hhead
        exact ⟨t, rfl⟩
    obtain ⟨t', hdrop'⟩ : ∃ t', lem.drop k = c :: t' := by
      cases hL : lem.drop k with
      | nil =>
        rw [hL] at hget
        cases hget
      | cons c' t' =>
        rw [hL] at hget
        cases hget
        exact ⟨t', rfl⟩
    have ht' : t' = lem.drop (k + 1) := by
      have := List.tail_drop lem k
      rw [hdrop'] at this
      simpa using this
    have hlem : lem = lem.take k ++ c :: lem.drop (k + 1) := by
      conv_lhs => rw [← List.take_append_drop k lem]
      rw [hdrop', ht']
    have hsplit : rsplitOnceChar lem c =
        some (lem.take k, lem.drop (k + 1)) := by
      conv_lhs => rw [hlem]
      exact rsplitOnceChar_last hnot _
    rw [hdrop]
    simp only [decodeIrregular, if_pos rfl, hsplit]
    rw [htake, ← hdrop, List.take_append_drop]
    simp

/-- Counterexample to claim C2 as stated: against the lemma `-ab` the raw
form `--x` is accepted while parsing and yields the stored form `-x`, but
decoding the encoding of `-x` fails instead of returning `-x`. -/
theorem claim_C2_counterexample :
    decodeIrregular (toStr "-ab") (toStr "--x") = some (toStr "-x") ∧
      decodeIrregular (toStr "-ab")
        (encodeIrregular (toStr "-ab") (toStr "-x")) = none := by
  decide

/-- Witness for claim C2 at the lemma `addendum` with raw form `-da` and
stored form `addenda`. -/
theorem claim_C2_witness :
    decodeIrregular (toStr "addendum")
      (encodeIrregular (toStr "addendum") (toStr "addenda")) =
        some (toStr "addenda") :=
  claim_C2_amended (toStr "addendum") (toStr "-da") (toStr "addenda")
    (by decide) (by decide)

/-! Lemmas for claim C8: the first form of a parsed lexeme. -/

theorem variantStep_head {variants : List Str} {acc : Str} {ch : Char}
    (hd : variants.head? = some acc) (hm : (deunicodeChar ch).isSome) :
    (variantStep variants ch).head? = some (acc ++ [ch]) := by
  obtain ⟨alt, halt⟩ := Option.isSome_iff_exists.mp hm
  obtain ⟨vs, hvs⟩ : ∃ vs, variants = acc :: vs := by
    cases variants with
    | nil => cases hd
    | cons v vs =>
      simp only [List.head?_cons, Option.some.injEq] at hd
      exact ⟨vs, by rw [hd]⟩
  subst hvs
  simp [variantStep, halt]

theorem variants_foldl_head :
    ∀ (l : Str) (variants : List Str) (acc : Str),
      (∀ c ∈ l, (deunicodeChar c).isSome) → variants.head? = some acc →
      (l.foldl variantStep variants).head? = some (acc ++ l) := by
  intro l
  induction l with
  | nil =>
    intro variants acc _ hd
    simpa using hd
  | cons ch rest ih =>
    intro variants acc hm hd
    rw [List.foldl_cons]
    have hstep := variantStep_head hd (hm ch (List.mem_cons_self ch rest))
    have := ih (variantStep variants ch) (acc ++ [ch])
      (fun c hc => hm c (List.mem_cons_of_mem _ hc)) hstep
    simpa using this

theorem variantSpellings_head {lem attr : Str}
    (hm : ∀ c ∈ lem, (deunicodeChar c).isSome) :
    (variantSpellings lem attr).head? = some lem := by
  have hbase : (lem.foldl variantStep [[]]).head? = some lem := by
    simpa using variants_foldl_head lem [[]] [] hm rfl
  unfold variantSpellings
  split
  · cases hb : lem.foldl variantStep [[]] with
    | nil =>
      rw [hb] at hbase
      cases hbase
    | cons x xs =>
      rw [hb] at hbase
      simpa using hbase
  · exact hbase

theorem foldl_decode_none (variant : Str) (l : List Str) :
    l.foldl
      (fun acc f =>
        match acc, decodeIrregular variant f with
        | some fs, some d => some (if d ≠ variant then fs ++ [d] else fs)
        | _, _ => none)
      none = none := by
  induction l with
  | nil => rfl
  | cons f l' ih =>
    rw [List.foldl_cons]
    cases hd : decodeIrregular variant f <;> simpa [hd] using ih

theorem foldl_decode_append (variant : Str) :
    ∀ (l : List Str) (a fs : List Str),
      l.foldl
        (fun acc f =>
          match acc, decodeIrregular variant f with
          | some fs, some d => some (if d ≠ variant then fs ++ [d] else fs)
          | _, _ => none)
        (some a) = some fs → ∃ t, fs = a ++ t := by
  intro l
  induction l with
  | nil =>
    intro a fs h
    cases h
    exact ⟨[], by simp⟩
  | cons f l' ih =>
    intro a fs h
    rw [List.foldl_cons] at h
    cases hd : decodeIrregular variant f with
    | none =>
      rw [hd] at h
      rw [show (match (some a : Option (List Str)),
            (none : Option Str) with
          | some fs, some d => some (if d ≠ variant then fs ++ [d] else fs)
          | _, _ => none) = none from rfl] at h
      rw [foldl_decode_none] at h
      cases h
    | some d =>
      rw [hd] at h
      by_cases hdv : d ≠ variant
      · rw [show (match (some a : Option (List Str)), some d with
            | some fs, some d => some (if d ≠ variant then fs ++ [d] else fs)
            | _, _ => none) = some (if d ≠ variant then a ++ [d] else a)
            from rfl, if_pos hdv] at h
        obtain ⟨t, ht⟩ := ih (a ++ [d]) fs h
        exact ⟨d :: t, by simpa using ht⟩
      · rw [show (match (some a : Option (List Str)), some d with
            | some fs, some d => some (if d ≠ variant then fs ++ [d] else fs)
            | _, _ => none) = some (if d ≠ variant then a ++ [d] else a)
            from rfl, if_neg hdv] at h
        exact ih a fs h

theorem buildInflected_cons {lx : Lexeme} {v : Str} {fs : List Str}
    (h : buildInflected lx v = some fs) : ∃ t, fs = v :: t := by
  unfold buildInflected at h
  split at h
  · cases h
    exact ⟨_, rfl⟩
  · obtain ⟨t, ht⟩ := foldl_decode_append v lx.irregularForms [v] fs h
    exact ⟨t, ht⟩

theorem foldl_inflected_none (lx : Lexeme) (l : List Str) :
    l.foldl
      (fun acc v =>
        match acc, buildInflected lx v with
        | some fs, some more => some (fs ++ more)
        | _, _ => none)
      none = none := by
  induction l with
  | nil => rfl
  | cons v l' ih =>
    rw [List.foldl_cons]
    cases hb : buildInflected lx v <;> simpa [hb] using ih

theorem foldl_inflected_append (lx : Lexeme) :
    ∀ (l : List Str) (a gs : List Str),
      l.foldl
        (fun acc v =>
          match acc, buildInflected lx v with
          | some fs, some more => some (fs ++ more)
          | _, _ => none)
        (some a) = some gs → ∃ t, gs = a ++ t := by
  intro l
  induction l with
  | nil =>
    intro a gs h
    cases h
    exact ⟨[], by simp⟩
  | cons v l' ih =>
    intro a gs h
    rw [List.foldl_cons] at h
    cases hb : buildInflected lx v with
    | none =>
      rw [hb] at h
      rw [show (match (some a : Option (List Str)),
            (none : Option (List Str)) with
          | some fs, some more => some (fs ++ more)
          | _, _ => none) = none from rfl] at h
      rw [foldl_inflected_none] at h
      cases h
    | some more =>
      rw [hb] at h
      rw [show (match (some a : Option (List Str)), some more with
          | some fs, some more => some (fs ++ more)
          | _, _ => none) = some (a ++ more) from rfl] at h
      obtain ⟨t, ht⟩ := ih (a ++ more) gs h
      exact ⟨more ++ t, by simpa using ht⟩

theorem buildInflectedForms_head {lx : Lexeme} {gs : List Str}
    (h : buildInflectedForms lx = some gs)
    (hm : ∀ c ∈ lx.lem, (deunicodeChar c).isSome) :
    gs.head? = some lx.lem := by
  unfold buildInflectedForms at h
  have hv := @variantSpellings_head _ lx.attr hm
  cases hvs : variantSpellings lx.lem lx.attr with
  | nil =>
    rw [hvs] at hv
    cases hv
  | cons v0 vs =>
    rw [hvs] at hv h
    simp only [List.head?_cons, Option.some.injEq] at hv
    rw [List.foldl_cons] at h
    cases hb : buildInflected lx v0 with
    | none =>
      rw [hb] at h
      rw [show (match (some ([] : List Str)),
            (none : Option (List Str)) with
          | some fs, some more => some (fs ++ more)
          | _, _ => none) = none from rfl] at h
      rw [foldl_inflected_none] at h
      cases h
    | some fs0 =>
      rw [hb] at h
      rw [show (match (some ([] : List Str)), some fs0 with
          | some fs, some more => some (fs ++ more)
          | _, _ => none) = some ([] ++ fs0) from rfl] at h
      obtain ⟨t0, ht0⟩ := buildInflected_cons hb
      obtain ⟨t, ht⟩ := foldl_inflected_append lx vs ([] ++ fs0) gs h
      rw [ht, ht0, hv]
      simp

/-- Claim C8 (amended): for every lexeme successfully constructed from a
lemma line whose lemma consists of characters the deunicode table can
transliterate, the first element of its form list is its lemma. -/
theorem claim_C8_amended (line : Str) (lx : Lexeme)
    (h : lexemeTryFrom line = some lx)
    (hm : ∀ c ∈ lx.lem, (deunicodeChar c).isSome) :
    lx.forms.head? = some lx.lem := by
  unfold lexemeTryFrom at h
  repeat' split at h
  all_goals try (simp only [] at h; repeat' split at h)
  all_goals try simp at h
  all_goals
    rename_i forms hforms
    cases h
    exact buildInflectedForms_head hforms hm

/-- Counterexample to claim C8 as stated: the lemma line `ab:N`
(its third lemma character is in the Private Use Area, which deunicode
cannot transliterate) parses successfully, but the character is dropped
from every variant spelling, so the first form `ab` differs from the
lemma. -/
theorem claim_C8_counterexample :
    lexemeTryFrom (toStr "ab:N") =
      some ⟨toStr "ab", .noun, [], [],
        [toStr "ab", toStr "abs"]⟩ ∧
    (⟨toStr "ab", WordClass.noun, [], [],
        [toStr "ab", toStr "abs"]⟩ : Lexeme).forms.head? ≠
      some (toStr "ab") := by
  constructor
  · decide
  · decide

/-- Witness for claim C8 at the lexeme line `try:V`. -/
theorem claim_C8_witness :
    (⟨toStr "try", WordClass.verb, [], [],
      [toStr "try", toStr "tries", toStr "trying", toStr "tried"]⟩ :
        Lexeme).forms.head? =
      some (⟨toStr "try", WordClass.verb, [], [],
        [toStr "try", toStr "tries", toStr "trying", toStr "tried"]⟩ :
          Lexeme).lem :=
  claim_C8_amended (toStr "try:V") _ (by decide) (by decide)

end Word

/-! Embedding of `src/tally.rs`: word categories, word entries and the
case-folded tally map. -/

namespace Tally

/-- Word category (`tally.rs`, enum `Category`). -/
inductive Category where
  | dictionary
  | ordinal
  | roman
  | number
  | acronym
  | foreign
  | proper
  | letter
  | unknown
deriving DecidableEq, Repr, Inhabited

/-- Check if a character is an apostrophe (`tally.rs::is_apostrophe`). -/
def isApostrophe (c : Char) : Bool :=
  c.toNat = 0x27 || c.toNat = 0x2BC || c.toNat = 0x2019 || c.toNat = 0xFF07

/-- Check if a character is part of a word (`tally.rs::is_word_char`). -/
def isWordChar (c : Char) : Bool :=
  isAlphanumericChar c || isApostrophe c || c = '-' || c = '.'

/-- Check if a string is a valid word (`tally.rs::is_word_valid`). -/
def isWordValid (w : Str) : Bool :=
  w.all isWordChar && !w.isEmpty

/-- Model of Rust `char::is_ascii_alphanumeric`. -/
def isAsciiAlphanumeric (c : Char) : Bool :=
  (65 ≤ c.toNat && c.toNat ≤ 90) || (97 ≤ c.toNat && c.toNat ≤ 122) ||
    isAsciiDigit c

/-- Check if a word is foreign (`tally.rs::is_foreign`): some character is
not ASCII alphanumeric, `-`, `.` or the canonical apostrophe U+2019. -/
def isForeign (w : Str) : Bool :=
  w.any fun c =>
    !isAsciiAlphanumeric c && c ≠ '-' && c ≠ '.' && c.toNat ≠ 0x2019

/-- Ordinal suffixes (`tally.rs::ORD_SUFFIXES`). -/
def ordSuffixes : List Str :=
  [toStr "1st", toStr "1ST", toStr "2nd", toStr "2ND",
   toStr "3rd", toStr "3RD", toStr "th", toStr "TH"]

/-- The loop of `tally.rs::is_ordinal_number`: at the first suffix that
strips, the remaining head must be nonempty and all ASCII digits. -/
def ordinalScan : List Str → Str → Bool
  | [], _ => false
  | suf :: rest, w =>
    match stripSuf w suf with
    | some p => !p.isEmpty && p.all isAsciiDigit
    | none => ordinalScan rest w

/-- Check if a string is an ordinal number (`tally.rs::is_ordinal_number`). -/
def isOrdinalNumber (w : Str) : Bool := ordinalScan ordSuffixes w

/-- Trailing-dot trim used by `tally.rs::is_roman_numeral`
(`trim_end_matches('.')`). -/
def trimEndDots (w : Str) : Str :=
  (w.reverse.dropWhile fun c => c = '.').reverse

/-- Check if a string is a roman numeral (`tally.rs::is_roman_numeral`). -/
def isRomanNumeral (w : Str) : Bool :=
  let word := trimEndDots w
  !word.isEmpty &&
    (word.all (fun c => (toStr "IVXLCDM").contains c) ||
     word.all (fun c => (toStr "ivxlcdm").contains c))

/-- Check if a word contains a number (`tally.rs::is_number`). -/
def isNumber (w : Str) : Bool := w.any isAsciiDigit

/-- Check if a word is an acronym (`tally.rs::is_acronym`); the length
test is on bytes. -/
def isAcronym (w : Str) : Bool :=
  2 ≤ byteLen w && w.all fun c => isUppercaseChar c || c = '.'

/-- Check if a word is probably proper (`tally.rs::is_probably_proper`). -/
def isProbablyProper (w : Str) : Bool :=
  match w with
  | [] => false
  | c :: rest => isUppercaseChar c && rest.any isLowercaseChar

/-- Guess the category of a word (`tally.rs`, `impl From<&str> for
Category`); the single-letter test is on bytes. -/
def categoryFrom (w : Str) : Category :=
  if isForeign w then .foreign
  else if isOrdinalNumber w then .ordinal
  else if isRomanNumeral w then .roman
  else if isNumber w then .number
  else if isAcronym w then .acronym
  else if isProbablyProper w then .proper
  else if byteLen w = 1 then .letter
  else .unknown

/-- Word tally entry (`tally.rs::WordEntry`). -/
structure WordEntry where
  seen : Nat
  word : Str
  cat : Category
deriving DecidableEq, Repr, Inhabited

/-- Create a new word entry (`tally.rs::WordEntry::new`). -/
def WordEntry.new (seen : Nat) (word : Str) : WordEntry :=
  ⟨seen, word, categoryFrom word⟩

/-- Fallible word-entry construction (`tally.rs`, `TryFrom<&str> for
WordEntry`). -/
def wordEntryTryFrom (w : Str) : Option WordEntry :=
  if isWordValid w then some (WordEntry.new 1 w) else none

/-- Count the uppercase characters of a word
(`tally.rs::count_uppercase`). -/
def countUppercase (w : Str) : Nat :=
  (w.filter isUppercaseChar).length

/-- The tally's hash map, modelled as an association list with distinct
keys (`tally.rs::WordTally`). -/
abbrev WordTally := List (Str × WordEntry)

/-- Map lookup (`HashMap::get`): the entry at the first matching key. -/
def lookup : WordTally → Str → Option WordEntry
  | [], _ => none
  | (k, v) :: rest, key => if k = key then some v else lookup rest key

/-- In-place update of the entry at a key (`HashMap::get_mut` followed by
mutation). -/
def updateAt : WordTally → Str → WordEntry → WordTally
  | [], _, _ => []
  | (k, v) :: rest, key, nv =>
    if k = key then (k, nv) :: rest else (k, v) :: updateAt rest key nv

/-- Map removal (`HashMap::remove`): drop the entry at the key. -/
def removeKey : WordTally → Str → WordTally
  | [], _ => []
  | (k, v) :: rest, key =>
    if k = key then rest else (k, v) :: removeKey rest key

/-- Tally a word (`tally.rs::WordTally::tally_word`): invalid words are
dropped; the key is the lowercased word; a present entry keeps the variant
with strictly fewer uppercase characters and accumulates the count; an
absent key gets a fresh entry whose count is `count`. -/
def tallyWord (t : WordTally) (word : Str) (count : Nat) : WordTally :=
  match wordEntryTryFrom word with
  | none => t
  | some we =>
    let key := toLowercase we.word
    match lookup t key with
    | some e =>
      if countUppercase we.word < countUppercase e.word then
        updateAt t key ⟨e.seen + count, we.word, we.cat⟩
      else
        updateAt t key ⟨e.seen + count, e.word, e.cat⟩
    | none => t ++ [(key, ⟨count, we.word, we.cat⟩)]

end Tally

/-! Lemmas about the tally map, and claim C4. -/

namespace Tally

theorem lookup_updateAt_self {t : WordTally} {k : Str} {e v : WordEntry}
    (h : lookup t k = some e) : lookup (updateAt t k v) k = some v := by
  induction t with
  | nil => cases h
  | cons p rest ih =>
    obtain ⟨k', v'⟩ := p
    by_cases hk : k' = k
    · simp [lookup, updateAt, hk]
    · simp only [lookup, updateAt, if_neg hk] at h ⊢
      exact ih h

theorem lookup_updateAt_other {t : WordTally} {k k' : Str} {v : WordEntry}
    (h : k' ≠ k) : lookup (updateAt t k v) k' = lookup t k' := by
  induction t with
  | nil => rfl
  | cons p rest ih =>
    obtain ⟨k0, v0⟩ := p
    by_cases hk : k0 = k
    · subst hk
      have hne : ¬k0 = k' := fun he => h he.symm
      simp only [updateAt, if_pos rfl, lookup, if_neg hne]
    · simp only [updateAt, if_neg hk, lookup]
      by_cases h0 : k0 = k'
      · rw [if_pos h0, if_pos h0]
      · rw [if_neg h0, if_neg h0]
        exact ih

theorem lookup_append_single_self {t : WordTally} {k : Str} {v : WordEntry}
    (h : lookup t k = none) : lookup (t ++ [(k, v)]) k = some v := by
  induction t with
  | nil => simp [lookup]
  | cons p rest ih =>
    obtain ⟨k0, v0⟩ := p
    simp only [lookup] at h
    by_cases hk : k0 = k
    · rw [if_pos hk] at h
      cases h
    · rw [if_neg hk] at h
      simp only [List.cons_append, lookup, if_neg hk]
      exact ih h

theorem lookup_append_single_other {t : WordTally} {k k' : Str}
    {v : WordEntry} (h : k' ≠ k) :
    lookup (t ++ [(k, v)]) k' = lookup t k' := by
  induction t with
  | nil =>
    simp only [List.nil_append, lookup]
    rw [if_neg (fun he => h he.symm)]
  | cons p rest ih =>
    obtain ⟨k0, v0⟩ := p
    simp only [List.cons_append, lookup]
    by_cases h0 : k0 = k'
    · rw [if_pos h0, if_pos h0]
    · rw [if_neg h0, if_neg h0]
      exact ih

/-- Claim C4: tallying a valid word touches exactly the case-folded key:
if the key is present, the count is added to `seen` and the stored word
and category are replaced exactly when the new variant has strictly fewer
uppercase characters; if the key is absent, a fresh entry with `seen =
count` is inserted; all other keys are unchanged. -/
theorem claim_C4 (t : WordTally) (w : Str) (c : Nat)
    (hv : isWordValid w = true) :
    (∀ e, lookup t (toLowercase w) = some e →
        lookup (tallyWord t w c) (toLowercase w) = some
          (if countUppercase w < countUppercase e.word
           then ⟨e.seen + c, w, categoryFrom w⟩
           else ⟨e.seen + c, e.word, e.cat⟩)) ∧
    (lookup t (toLowercase w) = none →
        lookup (tallyWord t w c) (toLowercase w) =
          some ⟨c, w, categoryFrom w⟩) ∧
    (∀ k, k ≠ toLowercase w → lookup (tallyWord t w c) k = lookup t k) := by
  have htf : wordEntryTryFrom w = some (WordEntry.new 1 w) := by
    unfold wordEntryTryFrom
    rw [if_pos hv]
  refine ⟨?_, ?_, ?_⟩
  · intro e he
    have hstep : tallyWord t w c =
        if countUppercase w < countUppercase e.word
        then updateAt t (toLowercase w) ⟨e.seen + c, w, categoryFrom w⟩
        else updateAt t (toLowercase w) ⟨e.seen + c, e.word, e.cat⟩ := by
      simp [tallyWord, htf, WordEntry.new, he]
    rw [hstep]
    by_cases hcc : countUppercase w < countUppercase e.word
    · rw [if_pos hcc, if_pos hcc]
      exact lookup_updateAt_self he
    · rw [if_neg hcc, if_neg hcc]
      exact lookup_updateAt_self he
  · intro he
    have hstep : tallyWord t w c =
        t ++ [(toLowercase w, ⟨c, w, categoryFrom w⟩)] := by
      simp [tallyWord, htf, WordEntry.new, he]
    rw [hstep]
    exact lookup_append_single_self he
  · intro k hk
    cases he : lookup t (toLowercase w) with
    | some e =>
      have hstep : tallyWord t w c =
          if countUppercase w < countUppercase e.word
          then updateAt t (toLowercase w) ⟨e.seen + c, w, categoryFrom w⟩
          else updateAt t (toLowercase w) ⟨e.seen + c, e.word, e.cat⟩ := by
        simp [tallyWord, htf, WordEntry.new, he]
      rw [hstep]
      by_cases hcc : countUppercase w < countUppercase e.word
      · rw [if_pos hcc]
        exact lookup_updateAt_other hk
      · rw [if_neg hcc]
        exact lookup_updateAt_other hk
    | none =>
      have hstep : tallyWord t w c =
          t ++ [(toLowercase w, ⟨c, w, categoryFrom w⟩)] := by
        simp [tallyWord, htf, WordEntry.new, he]
      rw [hstep]
      exact lookup_append_single_other hk

/-- Witness for claim C4: tallying the valid word `Cat` into the empty
tally. -/
theorem claim_C4_witness :
    (∀ e, lookup [] (toLowercase (toStr "Cat")) = some e →
        lookup (tallyWord [] (toStr "Cat") 1) (toLowercase (toStr "Cat")) =
          some
          (if countUppercase (toStr "Cat") < countUppercase e.word
           then ⟨e.seen + 1, toStr "Cat", categoryFrom (toStr "Cat")⟩
           else ⟨e.seen + 1, e.word, e.cat⟩)) ∧
    (lookup [] (toLowercase (toStr "Cat")) = none →
        lookup (tallyWord [] (toStr "Cat") 1) (toLowercase (toStr "Cat")) =
          some ⟨1, toStr "Cat", categoryFrom (toStr "Cat")⟩) ∧
    (∀ k, k ≠ toLowercase (toStr "Cat") →
        lookup (tallyWord [] (toStr "Cat") 1) k = lookup [] k) :=
  claim_C4 [] (toStr "Cat") 1 (by decide)

end Tally

/-! Termination development for the contraction work stack, the splitter
itself, and claim C9. -/

namespace Contr

theorem char_ofNat_toNat {n : Nat} (h : n < 0xD800) :
    (Char.ofNat n).toNat = n := by
  unfold Char.ofNat
  rw [dif_pos (Or.inl h)]
  rfl

theorem toAsciiLower_apos (c : Char) :
    Lex.isApostrophe (toAsciiLower c) = Lex.isApostrophe c := by
  unfold toAsciiLower
  split
  · rename_i hc
    simp only [Bool.and_eq_true, decide_eq_true_eq] at hc
    have hlt : c.toNat + 32 < 0xD800 := by omega
    unfold Lex.isApostrophe
    rw [char_ofNat_toNat hlt]
    rw [decide_eq_false (by omega : ¬(c.toNat + 32 = 0x27)),
      decide_eq_false (by omega : ¬(c.toNat + 32 = 0x2BC)),
      decide_eq_false (by omega : ¬(c.toNat + 32 = 0x2019)),
      decide_eq_false (by omega : ¬(c.toNat + 32 = 0xFF07)),
      decide_eq_false (by omega : ¬(c.toNat = 0x27)),
      decide_eq_false (by omega : ¬(c.toNat = 0x2BC)),
      decide_eq_false (by omega : ¬(c.toNat = 0x2019)),
      decide_eq_false (by omega : ¬(c.toNat = 0xFF07))]
  · rfl

theorem apos_of_pair {p w : Char}
    (h : (toAsciiLower p = toAsciiLower w ||
        (Lex.isApostrophe (toAsciiLower p) &&
         Lex.isApostrophe (toAsciiLower w))) = true) :
    Lex.isApostrophe w = Lex.isApostrophe p := by
  simp only [Bool.or_eq_true, Bool.and_eq_true, decide_eq_true_eq] at h
  cases h with
  | inl he =>
    rw [← toAsciiLower_apos w, ← toAsciiLower_apos p, he]
  | inr hb =>
    rw [← toAsciiLower_apos w, ← toAsciiLower_apos p, hb.1, hb.2]

theorem aposCount_append (a b : Str) :
    aposCount (a ++ b) = aposCount a + aposCount b := by
  simp [aposCount, List.filter_append]

theorem aposCount_le_length (w : Str) : aposCount w ≤ w.length :=
  List.length_filter_le _ w

theorem equalsContraction_aposCount :
    ∀ (part word : Str), equalsContraction part word = true →
      aposCount word = aposCount part := by
  intro part
  induction part with
  | nil =>
    intro word h
    unfold equalsContraction at h
    simp only [List.length_nil, Bool.and_eq_true, decide_eq_true_eq] at h
    cases word with
    | nil => rfl
    | cons w ws => cases h.1
  | cons p ps ih =>
    intro word h
    cases word with
    | nil =>
      unfold equalsContraction at h
      simp at h
    | cons w ws =>
      unfold equalsContraction at h
      simp only [List.length_cons, List.zip_cons_cons, List.all_cons,
        Bool.and_eq_true, decide_eq_true_eq] at h
      obtain ⟨hlen, hhead, htail⟩ := h
      have hrest : equalsContraction ps ws = true := by
        unfold equalsContraction
        simp only [Bool.and_eq_true, decide_eq_true_eq]
        exact ⟨by omega, htail⟩
      have hih := ih ws hrest
      have hpt := apos_of_pair hhead
      unfold aposCount
      rw [List.filter_cons, List.filter_cons]
      rw [show Lex.isApostrophe w = Lex.isApostrophe p from hpt]
      cases hp : Lex.isApostrophe p
      · simpa [aposCount] using hih
      · simpa [aposCount] using hih

theorem aposCount_take_drop (w : Str) (n : Nat) :
    aposCount w = aposCount (w.take n) + aposCount (w.drop n) := by
  conv_lhs => rw [← List.take_append_drop n w]
  exact aposCount_append _ _

theorem wordMeasure_eq {w : Str} (h : 1 ≤ aposCount w) :
    wordMeasure w = w.length + aposCount w := by
  unfold wordMeasure
  rw [if_neg (by omega)]

theorem wordMeasure_le {w : Str} : wordMeasure w ≤ w.length + aposCount w := by
  unfold wordMeasure
  split
  · omega
  · omega

theorem pow3_le_pow3 {a b : Nat} (h : a ≤ b) : 3 ^ a ≤ 3 ^ b :=
  Nat.pow_le_pow_right (by omega) h

/-- Side conditions of each table record that drive the termination
measure: patterns contain an apostrophe, expansions are apostrophe-free
(the one prefix record is the nested-quote rule), and the suffix
replacement does not lengthen the word. -/
def sideCond : Contraction → Bool
  | .full c a b => 1 ≤ aposCount c && aposCount a = 0 && aposCount b = 0
  | .pre p ex => p = toStr "’" && ex = toStr "’"
  | .suf s ex => 1 ≤ aposCount s && aposCount ex = 0
  | .sufReplace s ex =>
    (1 ≤ aposCount s && aposCount ex = 0) && ex.length ≤ s.length

theorem contractions_sideCond : ∀ con ∈ contractions, sideCond con = true := by
  decide

theorem tryExpand_bound {con : Contraction} {w : Str} {ws : List Str}
    (hside : sideCond con = true) (h : tryExpand con w = some ws) :
    (ws.map fun x => 3 ^ wordMeasure x).sum < 3 ^ wordMeasure w := by
  cases con with
  | full c a b =>
    unfold sideCond at hside
    simp only [Bool.and_eq_true, decide_eq_true_eq] at hside
    obtain ⟨⟨hc, ha⟩, hb⟩ := hside
    simp only [tryExpand] at h
    split at h
    · rename_i heqc
      cases h
      have hw : aposCount w = aposCount c := equalsContraction_aposCount c w heqc
      have hmw : 2 ≤ wordMeasure w := by
        rw [wordMeasure_eq (by omega)]
        have := aposCount_le_length w
        omega
      have h9 : 3 ^ 2 ≤ 3 ^ wordMeasure w := pow3_le_pow3 hmw
      have hma : wordMeasure a = 0 := by
        unfold wordMeasure
        rw [if_pos ha]
      have hmb : wordMeasure b = 0 := by
        unfold wordMeasure
        rw [if_pos hb]
      simp only [List.map_cons, List.map_nil, List.sum_cons, List.sum_nil,
        hma, hmb, pow_zero]
      have h9' : (9 : Nat) = 3 ^ 2 := by norm_num
      omega
    · cases h
  | pre p ex =>
    unfold sideCond at hside
    simp only [Bool.and_eq_true, decide_eq_true_eq] at hside
    obtain ⟨hp, hex⟩ := hside
    subst hp
    subst hex
    simp only [tryExpand] at h
    split at h
    · rename_i hlen
      split at h
      · rename_i heqc
        cases h
        have h1 : (toStr "’").length = 1 := by decide
        have hta : aposCount (w.take (toStr "’").length) = 1 :=
          (equalsContraction_aposCount _ _ heqc).trans (by decide)
        have hsplit := aposCount_take_drop w (toStr "’").length
        have hlw : 1 ≤ aposCount w := by omega
        have hmw : wordMeasure w = w.length + aposCount w := wordMeasure_eq hlw
        have hlen2 : 2 ≤ w.length := by omega
        have hmw3 : 3 ≤ wordMeasure w := by omega
        have hdroplen : (w.drop (toStr "’").length).length = w.length - 1 := by
          rw [h1]
          simp
        have hmd : wordMeasure (w.drop (toStr "’").length) + 2 ≤
            wordMeasure w := by
          have := @wordMeasure_le (w.drop (toStr "’").length)
          omega
        have hmex : wordMeasure (toStr "’") = 2 := by decide
        simp only [List.map_cons, List.map_nil, List.sum_cons, List.sum_nil,
          hmex]
        have hb1 : 3 ^ wordMeasure (w.drop (toStr "’").length) ≤
            3 ^ (wordMeasure w - 2) := pow3_le_pow3 (by omega)
        have hb2 : 3 ^ (wordMeasure w - 2) * 9 = 3 ^ wordMeasure w := by
          conv_rhs => rw [show wordMeasure w = wordMeasure w - 2 + 2 from by omega]
          rw [Nat.pow_add]
          try norm_num
        have hb3 : 3 ≤ 3 ^ (wordMeasure w - 2) := by
          calc (3 : Nat) = 3 ^ 1 := by norm_num
          _ ≤ 3 ^ (wordMeasure w - 2) := pow3_le_pow3 (by omega)
        omega
      · cases h
    · cases h
  | suf s ex =>
    unfold sideCond at hside
    simp only [Bool.and_eq_true, decide_eq_true_eq] at hside
    obtain ⟨hs, hex⟩ := hside
    simp only [tryExpand] at h
    split at h
    · rename_i hlen
      split at h
      · rename_i heqc
        cases h
        have hdb : aposCount (w.drop (w.length - s.length)) = aposCount s :=
          equalsContraction_aposCount _ _ heqc
        have hsplit := aposCount_take_drop w (w.length - s.length)
        have hlw : 1 ≤ aposCount w := by omega
        have hmw : wordMeasure w = w.length + aposCount w := wordMeasure_eq hlw
        have hslen : 1 ≤ s.length := by
          by_contra hc
          have hz : s.length = 0 := by omega
          have hs0 : s = [] := List.length_eq_zero.mp hz
          rw [hs0] at hs
          simp [aposCount] at hs
        have htlen : (w.take (w.length - s.length)).length =
            w.length - s.length := by
          simp
        have hma : wordMeasure (w.take (w.length - s.length)) + 2 ≤
            wordMeasure w := by
          have := @wordMeasure_le (w.take (w.length - s.length))
          omega
        have hmex : wordMeasure ex = 0 := by
          unfold wordMeasure
          rw [if_pos hex]
        simp only [List.map_cons, List.map_nil, List.sum_cons, List.sum_nil,
          hmex, pow_zero]
        have hmw2 : 2 ≤ wordMeasure w := by omega
        have hb1 : 3 ^ wordMeasure (w.take (w.length - s.length)) ≤
            3 ^ (wordMeasure w - 2) := pow3_le_pow3 (by omega)
        have hb2 : 3 ^ (wordMeasure w - 2) * 9 = 3 ^ wordMeasure w := by
          conv_rhs => rw [show wordMeasure w = wordMeasure w - 2 + 2 from by omega]
          rw [Nat.pow_add]
          try norm_num
        have hb3 : 1 ≤ 3 ^ (wordMeasure w - 2) := Nat.one_le_pow _ _ (by omega)
        omega
      · cases h
    · cases h
  | sufReplace s ex =>
    unfold sideCond at hside
    simp only [Bool.and_eq_true, decide_eq_true_eq] at hside
    obtain ⟨⟨hs, hex⟩, hexlen⟩ := hside
    simp only [tryExpand] at h
    split at h
    · rename_i hlen
      split at h
      · rename_i heqc
        cases h
        have hdb : aposCount (w.drop (w.length - s.length)) = aposCount s :=
          equalsContraction_aposCount _ _ heqc
        have hsplit := aposCount_take_drop w (w.length - s.length)
        have hlw : 1 ≤ aposCount w := by omega
        have hmw : wordMeasure w = w.length + aposCount w := wordMeasure_eq hlw
        have hslen : 1 ≤ s.length := by
          by_contra hc
          have hz : s.length = 0 := by omega
          have hs0 : s = [] := List.length_eq_zero.mp hz
          rw [hs0] at hs
          simp [aposCount] at hs
        have htlen : (w.take (w.length - s.length)).length =
            w.length - s.length := by
          simp
        have hcatlen : (w.take (w.length - s.length) ++ ex).length =
            w.length - s.length + ex.length := by
          simp [htlen]
        have hcatapos : aposCount (w.take (w.length - s.length) ++ ex) =
            aposCount (w.take (w.length - s.length)) := by
          rw [aposCount_append]
          omega
        have hma : wordMeasure (w.take (w.length - s.length) ++ ex) + 1 ≤
            wordMeasure w := by
          have := @wordMeasure_le (w.take (w.length - s.length) ++ ex)
          omega
        simp only [List.map_cons, List.map_nil, List.sum_cons, List.sum_nil]
        have hb1 : 3 ^ wordMeasure (w.take (w.length - s.length) ++ ex) <
            3 ^ wordMeasure w :=
          Nat.pow_lt_pow_right (by omega) (by omega)
        omega
      · cases h
    · cases h

theorem findExpand_bound {w : Str} {ws : List Str} :
    ∀ L : List Contraction, (∀ con ∈ L, sideCond con = true) →
      findExpand L w = some ws →
      (ws.map fun x => 3 ^ wordMeasure x).sum < 3 ^ wordMeasure w := by
  intro L
  induction L with
  | nil =>
    intro _ h
    cases h
  | cons con rest ih =>
    intro hside h
    unfold findExpand at h
    cases ht : tryExpand con w with
    | some ws' =>
      rw [ht] at h
      cases h
      exact tryExpand_bound (hside con (List.mem_cons_self con rest)) ht
    | none =>
      rw [ht] at h
      exact ih (fun c hc => hside c (List.mem_cons_of_mem _ hc)) h

theorem splitContraction_bound {w : Str} {ws : List Str}
    (h : splitContraction w = some ws) :
    (ws.map fun x => 3 ^ wordMeasure x).sum < 3 ^ wordMeasure w :=
  findExpand_bound contractions contractions_sideCond h

/-- The work-stack loop of `contractions.rs::split`: pop a word, emit it
when no table record matches, otherwise push the expansion (the head of
the stack is the top, so the pushed words are prepended reversed). -/
def splitLoop (stack ex : List Str) : List Str :=
  match stack with
  | [] => ex
  | w :: rest =>
    match h : splitContraction w with
    | none => splitLoop rest (ex ++ [w])
    | some ws => splitLoop (ws.reverse ++ rest) ex
termination_by phi stack
decreasing_by
  · simp only [phi, List.map_cons, List.sum_cons]
    have h3 : 0 < 3 ^ wordMeasure w := Nat.pos_pow_of_pos _ (by omega)
    omega
  · have hb := splitContraction_bound h
    simp only [phi, List.map_append, List.sum_append, List.map_reverse,
      List.sum_reverse, List.map_cons, List.sum_cons]
    omega

/-- Split contractions (`contractions.rs::split`). -/
def split (word : Str) : List Str := splitLoop [word] []

/-- The work-stack loop with explicit fuel: the literal transcription of
the Rust `while let Some(word) = words.pop()` loop, returning `none` if
the fuel runs out before the stack empties. -/
def splitLoopFuel : Nat → List Str → List Str → Option (List Str)
  | _, [], ex => some ex
  | 0, _ :: _, _ => none
  | fuel + 1, w :: rest, ex =>
    match splitContraction w with
    | none => splitLoopFuel fuel rest (ex ++ [w])
    | some ws => splitLoopFuel fuel (ws.reverse ++ rest) ex

theorem splitLoopFuel_adequate :
    ∀ (n : Nat) (stack ex : List Str), phi stack < n →
      splitLoopFuel n stack ex = some (splitLoop stack ex) := by
  intro n
  induction n with
  | zero =>
    intro stack ex h
    exact absurd h (Nat.not_lt_zero _)
  | succ n ih =>
    intro stack ex h
    cases stack with
    | nil =>
      rw [splitLoop]
      rfl
    | cons w rest =>
      have hpos : 0 < 3 ^ wordMeasure w := Nat.pos_pow_of_pos _ (by omega)
      have hphi : phi (w :: rest) = 3 ^ wordMeasure w + phi rest := by
        simp [phi]
      cases hc : splitContraction w with
      | none =>
        rw [show splitLoopFuel (n + 1) (w :: rest) ex =
            splitLoopFuel n rest (ex ++ [w]) from by
          simp [splitLoopFuel, hc]]
        rw [show splitLoop (w :: rest) ex = splitLoop rest (ex ++ [w]) from by
          rw [splitLoop]
          split
          · rfl
          · rename_i ws2 hws2
            rw [hc] at hws2
            cases hws2]
        exact ih rest (ex ++ [w]) (by omega)
      | some ws =>
        have hb := splitContraction_bound hc
        have hphi2 : phi (ws.reverse ++ rest) =
            (ws.map fun x => 3 ^ wordMeasure x).sum + phi rest := by
          simp [phi, List.map_reverse, List.sum_reverse]
        rw [show splitLoopFuel (n + 1) (w :: rest) ex =
            splitLoopFuel n (ws.reverse ++ rest) ex from by
          simp [splitLoopFuel, hc]]
        rw [show splitLoop (w :: rest) ex = splitLoop (ws.reverse ++ rest) ex
            from by
          rw [splitLoop]
          split
          · rename_i hws2
            rw [hc] at hws2
            cases hws2
          · rename_i ws2 hws2
            rw [hc] at hws2
            cases hws2
            rfl]
        exact ih (ws.reverse ++ rest) ex (by omega)

/-- Claim C9: the work-stack loop of `contractions::split` terminates for
every input word: some finite fuel lets the literal loop reach the empty
stack and return the split result; and a word matching no table record is
returned as the single element `[word]`. -/
theorem claim_C9 (w : Str) :
    ∃ fuel, splitLoopFuel fuel [w] [] = some (split w) ∧
      (splitContraction w = none → split w = [w]) := by
  refine ⟨phi [w] + 1, ?_, ?_⟩
  · exact splitLoopFuel_adequate (phi [w] + 1) [w] [] (Nat.lt_succ_self _)
  · intro hn
    unfold split
    rw [splitLoop]
    split
    · rw [splitLoop]
      rfl
    · rename_i ws2 hws2
      rw [hn] at hws2
      cases hws2

end Contr

/-! Embedding of `src/parse.rs`: the character splitter and the streaming
tokenizer.  The lexicon is a membership-predicate parameter `lex`,
modelling `Lexicon::contains` of the static builtin lexicon; the byte
reader is a byte list and never raises upstream I/O errors. -/

namespace Parse

/-- Character chunk types (`parse.rs::Chunk`). -/
inductive Chunk where
  | text
  | symbol
  | boundary
deriving DecidableEq, Repr, Inhabited

/-- One tokenizer item: an error message or a `(chunk, text, kind)`
triple. -/
abbrev Item := Except Str (Chunk × Str × KindM.Kind)

/-- Check if a character is an apostrophe (`parse.rs::is_apostrophe`). -/
def isApostrophe (c : Char) : Bool :=
  c.toNat = 0x27 || c.toNat = 0x2BC || c.toNat = 0x2019 || c.toNat = 0xFF07

/-- Check if a character is a word boundary (`parse.rs::is_boundary`). -/
def isBoundary (c : Char) : Bool :=
  isWhitespaceChar c || isControlChar c || c.toNat = 0x200B ||
    c.toNat = 0xFEFF

/-- Determine the chunk type of a character
(`parse.rs::Chunk::from_char`). -/
def chunkFromChar (c : Char) : Chunk :=
  if isBoundary c then .boundary
  else if isAlphanumericChar c || isApostrophe c then .text
  else .symbol

/-- Check if a dot may be appended (`parse.rs::is_dot_appendable`). -/
def isDotAppendable (word : Str) : Bool :=
  0 < word.length &&
    word.all (fun c => isUppercaseChar c || c = '.') &&
    !(word.getLast? = some '.')

/-- Check if a character is splittable (`parse.rs::is_splittable`). -/
def isSplittable (c : Char) : Bool :=
  c = '-' || isApostrophe c

/-- Get the kind of a word (`parse.rs::Parser::word_kind`). -/
def wordKind (lex : Str → Bool) (word : Str) : KindM.Kind :=
  if lex word then .lexicon else KindM.kindFrom word

/-- Check the kind of a possible contraction
(`parse.rs::Parser::contraction_kind`): an unknown word with an
apostrophe is split; an empty piece is skipped; any unknown piece makes
the whole word unknown, otherwise the last piece's kind is taken. -/
def contractionKind (lex : Str → Bool) (word : Str) : KindM.Kind :=
  if lex word then .lexicon
  else if word.any isApostrophe then
    let pieces := (Contr.split word).filter fun w => !w.isEmpty
    if pieces.any (fun w => wordKind lex w = KindM.Kind.unknown) then .unknown
    else ((pieces.map (wordKind lex)).getLast?).getD .unknown
  else KindM.kindFrom word

/-- Push one word (`parse.rs::Parser::push_word`), as the emitted item. -/
def pushWord (lex : Str → Bool) (chunk : Chunk) (word : Str) : List Item :=
  [.ok (chunk, word, wordKind lex word)]

/-- Push a word that may be a contraction
(`parse.rs::Parser::push_word_check_contraction`): empty words are
dropped. -/
def pushWordCheckContraction (lex : Str → Bool) (word : Str) : List Item :=
  if !word.isEmpty then [.ok (.text, word, contractionKind lex word)]
  else []

/-- Push one chunk (`parse.rs::Parser::push_chunk`): single characters,
lexicon words and unsplittable words are emitted whole; otherwise the
text is split on hyphens, with a Symbol `-` between the pieces. -/
def pushChunk (lex : Str → Bool) (chunk : Chunk) (txt : Str) : List Item :=
  if txt.length = 1 || lex txt || !(txt.any isSplittable) then
    pushWord lex chunk txt
  else
    match txt.splitOn '-' with
    | [] => []
    | p0 :: rest =>
      pushWordCheckContraction lex p0 ++
        rest.flatMap fun p =>
          pushWord lex .symbol ['-'] ++ pushWordCheckContraction lex p

/-- Push the pending text (`parse.rs::Parser::push_text`): empty text
emits nothing; text ending in its only dot with more than two characters
is flushed without the dot followed by a Symbol dot; otherwise the text
is flushed whole. -/
def pushText (lex : Str → Bool) (text : Str) : List Item :=
  if text.isEmpty then []
  else if (toStr ".").isSuffixOf text && 2 < text.length &&
      (text.filter fun c => c = '.').length = 1 then
    pushChunk lex .text text.dropLast ++ pushChunk lex .symbol (toStr ".")
  else pushChunk lex .text text

/-- Continuation-byte test of the UTF-8 format. -/
def isCont (b : Nat) : Bool := 0x80 ≤ b && b ≤ 0xBF

/-- Parse one UTF-8 character from the front of a byte list (the strict
validation `str::from_utf8` performs, including the overlong, surrogate
and out-of-range checks). -/
def parseUtf8Char : List Nat → Option (Char × List Nat)
  | [] => none
  | b :: rest =>
    if b < 0x80 then some (Char.ofNat b, rest)
    else if 0xC2 ≤ b && b ≤ 0xDF then
      match rest with
      | b2 :: r2 =>
        if isCont b2 then
          some (Char.ofNat ((b - 0xC0) * 64 + (b2 - 0x80)), r2)
        else none
      | [] => none
    else if 0xE0 ≤ b && b ≤ 0xEF then
      match rest with
      | b2 :: b3 :: r3 =>
        if (if b = 0xE0 then 0xA0 ≤ b2 && b2 ≤ 0xBF
            else if b = 0xED then 0x80 ≤ b2 && b2 ≤ 0x9F
            else isCont b2) && isCont b3 then
          some (Char.ofNat
            ((b - 0xE0) * 4096 + (b2 - 0x80) * 64 + (b3 - 0x80)), r3)
        else none
      | _ => none
    else if 0xF0 ≤ b && b ≤ 0xF4 then
      match rest with
      | b2 :: b3 :: b4 :: r4 =>
        if (if b = 0xF0 then 0x90 ≤ b2 && b2 ≤ 0xBF
            else if b = 0xF4 then 0x80 ≤ b2 && b2 ≤ 0x8F
            else isCont b2) && isCont b3 && isCont b4 then
          some (Char.ofNat ((b - 0xF0) * 262144 + (b2 - 0x80) * 4096 +
            (b3 - 0x80) * 64 + (b4 - 0x80)), r4)
        else none
      | _ => none
    else none

/-- First character of a fully valid UTF-8 buffer of at most four bytes
(`str::from_utf8` on the splitter's buffer followed by `chars().next()`). -/
def utf8First (code : List Nat) : Option Char :=
  match parseUtf8Char code with
  | none => none
  | some (c, r1) =>
    if r1.isEmpty then some c
    else
      match parseUtf8Char r1 with
      | none => none
      | some (_, r2) =>
        if r2.isEmpty then some c
        else
          match parseUtf8Char r2 with
          | none => none
          | some (_, r3) =>
            if r3.isEmpty then some c
            else
              match parseUtf8Char r3 with
              | none => none
              | some (_, r4) => if r4.isEmpty then some c else none

/-- The byte loop of `parse.rs::CharSplitter::next_char`: read up to four
bytes, emitting the first character as soon as the buffer is valid UTF-8;
end of input with a partial buffer, or four bad bytes, is the Invalid
UTF-8 error. -/
def nextCharGo : List Nat → List Nat → Nat → Option (Except Str Char) × List Nat
  | bytes, _, 0 => (some (.error (toStr "Invalid UTF-8")), bytes)
  | [], code, _ + 1 =>
    if code.isEmpty then (none, [])
    else (some (.error (toStr "Invalid UTF-8")), [])
  | b :: bs, code, fuel + 1 =>
    let code' := code ++ [b]
    match utf8First code' with
    | some c => (some (.ok c), bs)
    | none => nextCharGo bs code' fuel

/-- Read the next character (`parse.rs::CharSplitter::next_char`): the
code buffer is cleared on entry, and the loop runs at most four times. -/
def nextChar (bytes : List Nat) : Option (Except Str Char) × List Nat :=
  nextCharGo bytes [] 4

theorem nextCharGo_mono :
    ∀ (fuel : Nat) (bytes code : List Nat),
      (nextCharGo bytes code fuel).2.length ≤ bytes.length := by
  intro fuel
  induction fuel with
  | zero =>
    intro bytes code
    simp [nextCharGo]
  | succ n ih =>
    intro bytes code
    cases bytes with
    | nil =>
      unfold nextCharGo
      split <;> simp
    | cons b bs =>
      unfold nextCharGo
      cases hu : utf8First (code ++ [b]) with
      | some c =>
        simp only [hu]
        simp
      | none =>
        simp only [hu]
        have := ih bs (code ++ [b])
        simpa using Nat.le_succ_of_le this

theorem nextChar_consume {bytes : List Nat} {r : Except Str Char}
    {rest : List Nat} (h : nextChar bytes = (some r, rest))
    (hne : bytes ≠ []) : rest.length < bytes.length := by
  cases bytes with
  | nil => exact absurd rfl hne
  | cons b bs =>
    unfold nextChar nextCharGo at h
    simp only [List.nil_append] at h
    cases hu : utf8First [b] with
    | some c =>
      simp only [hu] at h
      cases h
      simp
    | none =>
      simp only [hu] at h
      have := nextCharGo_mono 3 bs [b]
      rw [h] at this
      simp only [List.length_cons]
      simp at this
      omega

theorem nextChar_nil : nextChar [] = (none, []) := rfl

theorem nextChar_ne_nil {bytes : List Nat} {r : Except Str Char}
    {rest : List Nat} (h : nextChar bytes = (some r, rest)) : bytes ≠ [] := by
  intro he
  subst he
  rw [nextChar_nil] at h
  cases h

/-- The while-let loop of `parse.rs::Parser::read_chunk`, returning the
chunks it pushes together with the remaining bytes and pending text:
boundary and non-appendable symbol characters flush and return, hyphen
and dot accumulation continue, text characters accumulate, end of input
flushes, and a splitter error pushes exactly that error (keeping the
pending text). -/
def readChunk (lex : Str → Bool) (bytes : List Nat) (text : Str) :
    List Item × List Nat × Str :=
  match hnc : nextChar bytes with
  | (none, rest) => (pushText lex text, rest, [])
  | (some (.error e), rest) => ([.error e], rest, text)
  | (some (.ok c), rest) =>
    match chunkFromChar c with
    | .boundary =>
      (pushText lex text ++ pushChunk lex .boundary [c], rest, [])
    | .symbol =>
      if c = '-' && !text.isEmpty && !(text.getLast? = some '-') then
        readChunk lex rest (text ++ ['-'])
      else if c = '.' && isDotAppendable text then
        readChunk lex rest (text ++ ['.'])
      else
        (pushText lex text ++ pushChunk lex .symbol [c], rest, [])
    | .text => readChunk lex rest (text ++ [c])
termination_by bytes.length
decreasing_by
  · exact nextChar_consume hnc (nextChar_ne_nil hnc)
  · exact nextChar_consume hnc (nextChar_ne_nil hnc)
  · exact nextChar_consume hnc (nextChar_ne_nil hnc)

/-- Parser state: the remaining bytes of the splitter, the pending text
and the processed chunk queue (`parse.rs::Parser`). -/
structure PState where
  bytes : List Nat
  text : Str
  chunks : List Item
deriving Repr

/-- One pull of the iterator (`parse.rs`, `Iterator for Parser::next`):
fill the queue by `read_chunk` when it is empty, then pop the front. -/
def parserNext (lex : Str → Bool) (s : PState) : Option Item × PState :=
  if s.chunks.isEmpty then
    match readChunk lex s.bytes s.text with
    | (items, bytes2, text2) =>
      match items with
      | [] => (none, ⟨bytes2, text2, []⟩)
      | it :: rest => (some it, ⟨bytes2, text2, rest⟩)
  else
    match s.chunks with
    | [] => (none, s)
    | it :: rest => (some it, ⟨s.bytes, s.text, rest⟩)

/-- Fresh parser over a byte stream (`parse.rs::Parser::new`). -/
def initState (bytes : List Nat) : PState := ⟨bytes, [], []⟩

/-- The item returned by the n-th pull of `Parser::next`. -/
def nthItem (lex : Str → Bool) (s : PState) : Nat → Option Item
  | 0 => (parserNext lex s).1
  | n + 1 => nthItem lex (parserNext lex s).2 n

theorem singleton_isSuffix_iff {l : Str} {c : Char} :
    (([c] : Str).isSuffixOf l = true) ↔ l.getLast? = some c := by
  rw [List.isSuffixOf_iff_suffix]
  constructor
  · rintro ⟨p, hp⟩
    rw [← hp, List.getLast?_concat]
  · intro h
    have hne : l ≠ [] := by
      intro he
      rw [he] at h
      cases h
    refine ⟨l.dropLast, ?_⟩
    have hdl := List.dropLast_append_getLast hne
    have hg : l.getLast hne = c := by
      have hq := List.getLast?_eq_getLast l hne
      rw [hq] at h
      injection h
    rw [← hg]
    exact hdl

/-- Claim C5: flushing a nonempty pending text buffer emits the text with
its trailing dot stripped as a Text chunk followed by a separate
one-character dot Symbol chunk exactly when the text ends in a dot,
contains exactly one dot, and has more than two characters; in every
other case the whole buffer is flushed as a single Text chunk. -/
theorem claim_C5 (lex : Str → Bool) (text : Str) (hne : text ≠ []) :
    (text.getLast? = some '.' ∧
        (text.filter fun c => c = '.').length = 1 ∧ 2 < text.length →
      pushText lex text =
        pushChunk lex .text text.dropLast ++
          pushChunk lex .symbol (toStr ".")) ∧
    (¬(text.getLast? = some '.' ∧
        (text.filter fun c => c = '.').length = 1 ∧ 2 < text.length) →
      pushText lex text = pushChunk lex .text text) := by
  have hie : text.isEmpty = false := by
    cases text
    · exact absurd rfl hne
    · rfl
  have hc1 : ((toStr ".").isSuffixOf text = true) ↔
      text.getLast? = some '.' := by
    rw [show toStr "." = ['.'] from rfl]
    exact singleton_isSuffix_iff
  constructor
  · intro hc
    unfold pushText
    rw [if_neg (by simp [hie]), if_pos (by
      simp only [Bool.and_eq_true, decide_eq_true_eq]
      exact ⟨⟨hc1.mpr hc.1, hc.2.2⟩, hc.2.1⟩)]
  · intro hc
    unfold pushText
    rw [if_neg (by simp [hie]), if_neg (fun hb => by
      simp only [Bool.and_eq_true, decide_eq_true_eq] at hb
      exact hc ⟨hc1.mp hb.1.1, hb.2, hb.1.2⟩)]

/-- Witness for claim C5 at the pending text `abc.` (and the always-false
lexicon predicate). -/
theorem claim_C5_witness :
    ((toStr "abc.").getLast? = some '.' ∧
        ((toStr "abc.").filter fun c => c = '.').length = 1 ∧
        2 < (toStr "abc.").length →
      pushText (fun _ => false) (toStr "abc.") =
        pushChunk (fun _ => false) .text (toStr "abc.").dropLast ++
          pushChunk (fun _ => false) .symbol (toStr ".")) ∧
    (¬((toStr "abc.").getLast? = some '.' ∧
        ((toStr "abc.").filter fun c => c = '.').length = 1 ∧
        2 < (toStr "abc.").length) →
      pushText (fun _ => false) (toStr "abc.") =
        pushChunk (fun _ => false) .text (toStr "abc.")) :=
  claim_C5 (fun _ => false) (toStr "abc.") (by decide)

set_option maxHeartbeats 1000000 in
theorem readChunk_eof {lex : Str → Bool} {bytes rest : List Nat} {text : Str}
    (h : nextChar bytes = (none, rest)) :
    readChunk lex bytes text = (pushText lex text, rest, []) := by
  rw [readChunk]
  split
  · rename_i heq
    rw [h] at heq
    cases heq
    rfl
  · rename_i heq
    rw [h] at heq
    cases heq
  · rename_i heq
    rw [h] at heq
    cases heq

set_option maxHeartbeats 1000000 in
theorem readChunk_error {lex : Str → Bool} {bytes rest : List Nat}
    {text : Str} {e : Str}
    (h : nextChar bytes = (some (.error e), rest)) :
    readChunk lex bytes text = ([.error e], rest, text) := by
  rw [readChunk]
  split
  · rename_i heq
    rw [h] at heq
    cases heq
  · rename_i e2 r2 heq
    rw [h] at heq
    cases heq
    rfl
  · rename_i c2 r2 heq
    rw [h] at heq
    cases heq

set_option maxHeartbeats 1000000 in
theorem readChunk_char {lex : Str → Bool} {bytes rest : List Nat}
    {text : Str} {c : Char}
    (h : nextChar bytes = (some (.ok c), rest)) :
    readChunk lex bytes text =
      match chunkFromChar c with
      | .boundary =>
        (pushText lex text ++ pushChunk lex .boundary [c], rest, [])
      | .symbol =>
        if c = '-' && !text.isEmpty && !(text.getLast? = some '-') then
          readChunk lex rest (text ++ ['-'])
        else if c = '.' && isDotAppendable text then
          readChunk lex rest (text ++ ['.'])
        else (pushText lex text ++ pushChunk lex .symbol [c], rest, [])
      | .text => readChunk lex rest (text ++ [c]) := by
  rw [readChunk]
  split
  · rename_i heq
    rw [h] at heq
    cases heq
  · rename_i e2 r2 heq
    rw [h] at heq
    cases heq
  · rename_i c2 r2 heq
    rw [h] at heq
    cases heq
    rfl

/-- An item is either an error or carries nonempty text. -/
def okNonempty (item : Item) : Prop :=
  ∀ ch t k, item = .ok (ch, t, k) → t ≠ []

theorem pushWord_ok {lex : Str → Bool} {ch : Chunk} {w : Str} (hw : w ≠ []) :
    ∀ item ∈ pushWord lex ch w, okNonempty item := by
  intro item hitem
  simp only [pushWord, List.mem_singleton] at hitem
  subst hitem
  intro ch2 t k heq
  cases heq
  exact hw

theorem pushWordCheckContraction_ok {lex : Str → Bool} {w : Str} :
    ∀ item ∈ pushWordCheckContraction lex w, okNonempty item := by
  intro item hitem
  unfold pushWordCheckContraction at hitem
  split at hitem
  · rename_i hw
    simp only [List.mem_singleton] at hitem
    subst hitem
    intro ch2 t k heq
    cases heq
    simp only [Bool.not_eq_true'] at hw
    intro he
    rw [he] at hw
    cases hw
  · cases hitem

theorem pushChunk_ok {lex : Str → Bool} {ch : Chunk} {txt : Str}
    (h : txt ≠ []) : ∀ item ∈ pushChunk lex ch txt, okNonempty item := by
  intro item hitem
  unfold pushChunk at hitem
  split at hitem
  · exact pushWord_ok h item hitem
  · split at hitem
    · cases hitem
    · rename_i p0 rest heq
      rw [List.mem_append] at hitem
      cases hitem with
      | inl h0 => exact pushWordCheckContraction_ok item h0
      | inr h1 =>
        rw [List.mem_flatMap] at h1
        obtain ⟨p, hp, hmem⟩ := h1
        rw [List.mem_append] at hmem
        cases hmem with
        | inl h2 => exact pushWord_ok (by simp) item h2
        | inr h3 => exact pushWordCheckContraction_ok item h3

theorem pushText_ok {lex : Str → Bool} {text : Str} :
    ∀ item ∈ pushText lex text, okNonempty item := by
  intro item hitem
  unfold pushText at hitem
  split at hitem
  · cases hitem
  · rename_i hne
    split at hitem
    · rename_i hcond
      simp only [Bool.and_eq_true, decide_eq_true_eq] at hcond
      rw [List.mem_append] at hitem
      cases hitem with
      | inl h0 =>
        refine pushChunk_ok ?_ item h0
        have hlen : 2 < text.length := hcond.1.2
        intro he
        have hdl : text.dropLast.length = text.length - 1 := by simp
        rw [he] at hdl
        simp only [List.length_nil] at hdl
        omega
      | inr h1 => exact pushChunk_ok (by decide) item h1
    · refine pushChunk_ok ?_ item hitem
      intro he
      rw [he] at hne
      exact hne rfl

theorem readChunk_items_ok (lex : Str → Bool) :
    ∀ (N : Nat) (bytes : List Nat) (text : Str), bytes.length < N →
      ∀ item ∈ (readChunk lex bytes text).1, okNonempty item := by
  intro N
  induction N with
  | zero =>
    intro bytes text h
    exact absurd h (Nat.not_lt_zero _)
  | succ N ih =>
    intro bytes text hlen item hitem
    cases hnc : nextChar bytes with
    | mk or rest =>
      cases or with
      | none =>
        rw [readChunk_eof hnc] at hitem
        exact pushText_ok item hitem
      | some r =>
        have hlt : rest.length < bytes.length :=
          nextChar_consume hnc (nextChar_ne_nil hnc)
        cases r with
        | error e =>
          rw [readChunk_error hnc] at hitem
          simp only [List.mem_singleton] at hitem
          subst hitem
          intro ch2 t k heq
          cases heq
        | ok c =>
          rw [readChunk_char hnc] at hitem
          cases hcc : chunkFromChar c with
          | boundary =>
            rw [hcc] at hitem
            simp only [List.mem_append] at hitem
            cases hitem with
            | inl h0 => exact pushText_ok item h0
            | inr h1 => exact pushChunk_ok (List.cons_ne_nil _ _) item h1
          | text =>
            rw [hcc] at hitem
            exact ih rest (text ++ [c]) (by omega) item hitem
          | symbol =>
            rw [hcc] at hitem
            simp only [] at hitem
            split at hitem
            · exact ih rest (text ++ ['-']) (by omega) item hitem
            · split at hitem
              · exact ih rest (text ++ ['.']) (by omega) item hitem
              · simp only [List.mem_append] at hitem
                cases hitem with
                | inl h0 => exact pushText_ok item h0
                | inr h1 => exact pushChunk_ok (List.cons_ne_nil _ _) item h1

/-- All items in the queue of a parser state carry nonempty text. -/
def stateOk (s : PState) : Prop := ∀ item ∈ s.chunks, okNonempty item

theorem parserNext_preserves (lex : Str → Bool) (s : PState)
    (hs : stateOk s) :
    (∀ item, (parserNext lex s).1 = some item → okNonempty item) ∧
      stateOk (parserNext lex s).2 := by
  obtain ⟨bytes, text, chunks⟩ := s
  cases chunks with
  | cons it rest =>
    have hstep : parserNext lex ⟨bytes, text, it :: rest⟩ =
        (some it, ⟨bytes, text, rest⟩) := rfl
    rw [hstep]
    refine ⟨fun item h => ?_, fun item h => ?_⟩
    · cases h
      exact hs it (List.mem_cons_self _ _)
    · exact hs item (List.mem_cons_of_mem _ h)
  | nil =>
    have hstep : parserNext lex ⟨bytes, text, []⟩ =
        match readChunk lex bytes text with
        | (items, bytes2, text2) =>
          match items with
          | [] => (none, ⟨bytes2, text2, []⟩)
          | it :: rest => (some it, ⟨bytes2, text2, rest⟩) := rfl
    rw [hstep]
    have hall := readChunk_items_ok lex (bytes.length + 1) bytes text
      (Nat.lt_succ_self _)
    cases hr : readChunk lex bytes text with
    | mk items r2 =>
      rw [hr] at hall
      obtain ⟨bytes2, text2⟩ := r2
      cases items with
      | nil =>
        refine ⟨fun item h => ?_, fun item h => ?_⟩
        · cases h
        · cases h
      | cons it rest =>
        refine ⟨fun item h => ?_, fun item h => ?_⟩
        · cases h
          exact hall it (List.mem_cons_self _ _)
        · exact hall item (List.mem_cons_of_mem _ h)

theorem nthItem_ok (lex : Str → Bool) :
    ∀ (n : Nat) (s : PState), stateOk s →
      ∀ ch t k, nthItem lex s n = some (.ok (ch, t, k)) → t ≠ [] := by
  intro n
  induction n with
  | zero =>
    intro s hs ch t k h
    exact (parserNext_preserves lex s hs).1 _ h ch t k rfl
  | succ n ih =>
    intro s hs ch t k h
    exact ih _ (parserNext_preserves lex s hs).2 ch t k h

/-- Claim C10: the tokenizer never yields an empty token: for every
lexicon predicate, every input byte stream and every pull, an `Ok`
triple returned by the parser carries nonempty text. -/
theorem claim_C10 (lex : Str → Bool) (bytes : List Nat) (n : Nat)
    (ch : Chunk) (t : Str) (k : KindM.Kind)
    (h : nthItem lex (initState bytes) n = some (.ok (ch, t, k))) :
    t ≠ [] :=
  nthItem_ok lex n (initState bytes) (fun item hmem => by cases hmem)
    ch t k h

theorem parserNext_emptyq (lex : Str → Bool) (bytes : List Nat) (text : Str) :
    parserNext lex ⟨bytes, text, []⟩ =
      match readChunk lex bytes text with
      | (items, bytes2, text2) =>
        match items with
        | [] => (none, ⟨bytes2, text2, []⟩)
        | it :: rest => (some it, ⟨bytes2, text2, rest⟩) := rfl

/-- Witness for claim C10 at the byte stream `hi` with the always-false
lexicon predicate: the first pulled item is a Text chunk with the nonempty
text `hi`. -/
theorem claim_C10_witness :
    nthItem (fun _ => false) (initState [0x68, 0x69]) 0 =
        some (.ok (.text, toStr "hi", KindM.Kind.unknown)) ∧
      toStr "hi" ≠ ([] : Str) := by
  have h1 : readChunk (fun _ => false) [0x68, 0x69] [] =
      readChunk (fun _ => false) [0x69] ['h'] := by
    rw [@readChunk_char (fun _ => false) [0x68, 0x69] [0x69] [] 'h' rfl]
    rfl
  have h2 : readChunk (fun _ => false) [0x69] ['h'] =
      readChunk (fun _ => false) [] ['h', 'i'] := by
    rw [@readChunk_char (fun _ => false) [0x69] [] ['h'] 'i' rfl]
    rfl
  have h3 : readChunk (fun _ => false) [] ['h', 'i'] =
      (pushText (fun _ => false) ['h', 'i'], [], []) :=
    @readChunk_eof (fun _ => false) [] [] ['h', 'i'] rfl
  have hpt : pushText (fun _ => false) ['h', 'i'] =
      [.ok (.text, toStr "hi", KindM.Kind.unknown)] := rfl
  have hfull : readChunk (fun _ => false) [0x68, 0x69] [] =
      ([.ok (.text, toStr "hi", KindM.Kind.unknown)], [], []) := by
    rw [h1, h2, h3, hpt]
  have hn : nthItem (fun _ => false) (initState [0x68, 0x69]) 0 =
      some (.ok (.text, toStr "hi", KindM.Kind.unknown)) := by
    show (parserNext (fun _ => false) ⟨[0x68, 0x69], [], []⟩).1 = _
    rw [parserNext_emptyq, hfull]
  exact ⟨hn, claim_C10 (fun _ => false) [0x68, 0x69] 0 .text (toStr "hi")
    KindM.Kind.unknown hn⟩

/-- Whether the byte stream contains an ill-formed UTF-8 sequence: the
splitter, pulled repeatedly, eventually returns an error rather than
reaching the end of input. -/
def streamHasError (bytes : List Nat) : Bool :=
  match hnc : nextChar bytes with
  | (none, _) => false
  | (some (.error _), _) => true
  | (some (.ok _), rest) => streamHasError rest
termination_by bytes.length
decreasing_by exact nextChar_consume hnc (nextChar_ne_nil hnc)

set_option maxHeartbeats 1000000 in
theorem streamHasError_eof {bytes rest : List Nat}
    (h : nextChar bytes = (none, rest)) : streamHasError bytes = false := by
  rw [streamHasError]
  split
  · rfl
  · rename_i heq
    rw [h] at heq
    cases heq
  · rename_i heq
    rw [h] at heq
    cases heq

set_option maxHeartbeats 1000000 in
theorem streamHasError_error {bytes rest : List Nat} {e : Str}
    (h : nextChar bytes = (some (.error e), rest)) :
    streamHasError bytes = true := by
  rw [streamHasError]
  split
  · rename_i heq
    rw [h] at heq
    cases heq
  · rfl
  · rename_i heq
    rw [h] at heq
    cases heq

set_option maxHeartbeats 1000000 in
theorem streamHasError_ok {bytes rest : List Nat} {c : Char}
    (h : nextChar bytes = (some (.ok c), rest)) :
    streamHasError bytes = streamHasError rest := by
  rw [streamHasError]
  split
  · rename_i heq
    rw [h] at heq
    cases heq
  · rename_i heq
    rw [h] at heq
    cases heq
  · rename_i c2 r2 heq
    rw [h] at heq
    cases heq
    rfl

theorem nextCharGo_error_msg :
    ∀ (fuel : Nat) (bytes code : List Nat) (e : Str) (rest : List Nat),
      nextCharGo bytes code fuel = (some (.error e), rest) →
      e = toStr "Invalid UTF-8" := by
  intro fuel
  induction fuel with
  | zero =>
    intro bytes code e rest h
    simp only [nextCharGo] at h
    injection h with h1 h2
    injection h1 with h4
    injection h4 with h5
    exact h5.symm
  | succ n ih =>
    intro bytes code e rest h
    cases bytes with
    | nil =>
      simp only [nextCharGo] at h
      split at h
      · cases h
      · injection h with h1 h2
        injection h1 with h4
        injection h4 with h5
        exact h5.symm
    | cons b bs =>
      simp only [nextCharGo] at h
      cases hu : utf8First (code ++ [b]) with
      | some c =>
        simp only [hu] at h
        injection h with h1 h2
        injection h1 with h4
        cases h4
      | none =>
        simp only [hu] at h
        exact ih bs (code ++ [b]) e rest h

theorem nextChar_error_msg {bytes : List Nat} {e : Str} {rest : List Nat}
    (h : nextChar bytes = (some (.error e), rest)) :
    e = toStr "Invalid UTF-8" :=
  nextCharGo_error_msg 4 bytes [] e rest h

theorem readChunk_error_prop (lex : Str → Bool) :
    ∀ (N : Nat) (bytes : List Nat), bytes.length < N → ∀ (text : Str),
      streamHasError bytes = true →
      (readChunk lex bytes text).1 = [.error (toStr "Invalid UTF-8")] ∨
        (streamHasError (readChunk lex bytes text).2.1 = true ∧
          (readChunk lex bytes text).2.1.length < bytes.length) := by
  intro N
  induction N with
  | zero =>
    intro bytes h
    exact absurd h (Nat.not_lt_zero _)
  | succ N ih =>
    intro bytes hlen text hse
    cases hnc : nextChar bytes with
    | mk or rest =>
      cases or with
      | none =>
        rw [streamHasError_eof hnc] at hse
        cases hse
      | some r =>
        cases r with
        | error e =>
          left
          have he := nextChar_error_msg hnc
          rw [readChunk_error hnc, he]
        | ok c =>
          have hse2 : streamHasError rest = true := by
            rw [streamHasError_ok hnc] at hse
            exact hse
          have hrlt : rest.length < bytes.length :=
            nextChar_consume hnc (nextChar_ne_nil hnc)
          cases hcc : chunkFromChar c with
          | boundary =>
            have hred : readChunk lex bytes text =
                (pushText lex text ++ pushChunk lex .boundary [c],
                  rest, []) := by
              rw [readChunk_char hnc, hcc]
            rw [hred]
            right
            exact ⟨hse2, hrlt⟩
          | text =>
            have hred : readChunk lex bytes text =
                readChunk lex rest (text ++ [c]) := by
              rw [readChunk_char hnc, hcc]
            rw [hred]
            rcases ih rest (by omega) (text ++ [c]) hse2 with h0 | ⟨h1, h2⟩
            · left
              exact h0
            · right
              exact ⟨h1, by omega⟩
          | symbol =>
            have hred : readChunk lex bytes text =
                (if c = '-' && !text.isEmpty &&
                    !(text.getLast? = some '-') then
                  readChunk lex rest (text ++ ['-'])
                else if c = '.' && isDotAppendable text then
                  readChunk lex rest (text ++ ['.'])
                else (pushText lex text ++ pushChunk lex .symbol [c],
                  rest, [])) := by
              rw [readChunk_char hnc, hcc]
            rw [hred]
            split
            · rcases ih rest (by omega) (text ++ ['-']) hse2 with
                h0 | ⟨h1, h2⟩
              · left
                exact h0
              · right
                exact ⟨h1, by omega⟩
            · split
              · rcases ih rest (by omega) (text ++ ['.']) hse2 with
                  h0 | ⟨h1, h2⟩
                · left
                  exact h0
                · right
                  exact ⟨h1, by omega⟩
              · right
                exact ⟨hse2, hrlt⟩

theorem nthItem_drain (lex : Str → Bool) (b : List Nat) (t : Str) :
    ∀ (q : List Item) (n : Nat),
      nthItem lex ⟨b, t, q⟩ (q.length + n) = nthItem lex ⟨b, t, []⟩ n := by
  intro q
  induction q with
  | nil =>
    intro n
    simp only [List.length_nil, Nat.zero_add]
  | cons it q ih =>
    intro n
    have hidx : (it :: q).length + n = (q.length + n) + 1 := by
      simp only [List.length_cons]
      omega
    rw [hidx]
    have hpop : nthItem lex ⟨b, t, it :: q⟩ ((q.length + n) + 1) =
        nthItem lex ⟨b, t, q⟩ (q.length + n) := rfl
    rw [hpop, ih]

theorem parser_error_surfaces (lex : Str → Bool) :
    ∀ (N : Nat) (bytes : List Nat), bytes.length < N → ∀ (text : Str),
      streamHasError bytes = true →
      ∃ n, nthItem lex ⟨bytes, text, []⟩ n =
        some (.error (toStr "Invalid UTF-8")) := by
  intro N
  induction N with
  | zero =>
    intro bytes h
    exact absurd h (Nat.not_lt_zero _)
  | succ N ih =>
    intro bytes hlen text hse
    cases hrc : readChunk lex bytes text with
    | mk items brest =>
      obtain ⟨bytes2, text2⟩ := brest
      rcases readChunk_error_prop lex (bytes.length + 1) bytes
          (Nat.lt_succ_self _) text hse with h0 | ⟨h1, h2⟩
      · refine ⟨0, ?_⟩
        show (parserNext lex ⟨bytes, text, []⟩).1 = _
        rw [parserNext_emptyq, hrc]
        rw [hrc] at h0
        have hitems : items = [.error (toStr "Invalid UTF-8")] := h0
        rw [hitems]
      · rw [hrc] at h1 h2
        have h1s : streamHasError bytes2 = true := h1
        have h2s : bytes2.length < bytes.length := h2
        obtain ⟨n, hn⟩ := ih bytes2 (by omega) text2 h1s
        refine ⟨items.tail.length + n + 1, ?_⟩
        show nthItem lex (parserNext lex ⟨bytes, text, []⟩).2
          (items.tail.length + n) = _
        have hsnd : (parserNext lex ⟨bytes, text, []⟩).2 =
            ⟨bytes2, text2, items.tail⟩ := by
          rw [parserNext_emptyq, hrc]
          cases items <;> rfl
        rw [hsnd, nthItem_drain]
        exact hn

theorem ffStream_item0 :
    nthItem (fun _ => false)
        (initState [0xFF, 0xFF, 0xFF, 0xFF, 0x61]) 0 =
      some (.error (toStr "Invalid UTF-8")) := by
  show (parserNext (fun _ => false) ⟨[0xFF, 0xFF, 0xFF, 0xFF, 0x61], [], []⟩).1
    = _
  rw [parserNext_emptyq,
    @readChunk_error (fun _ => false) [0xFF, 0xFF, 0xFF, 0xFF, 0x61] [0x61]
      [] (toStr "Invalid UTF-8") rfl]

theorem ffStream_item1 :
    nthItem (fun _ => false)
        (initState [0xFF, 0xFF, 0xFF, 0xFF, 0x61]) 1 =
      some (.ok (.text, toStr "a", KindM.Kind.symbol)) := by
  show nthItem (fun _ => false)
    (parserNext (fun _ => false) ⟨[0xFF, 0xFF, 0xFF, 0xFF, 0x61], [], []⟩).2
    0 = _
  have hsnd : (parserNext (fun _ => false)
      ⟨[0xFF, 0xFF, 0xFF, 0xFF, 0x61], [], []⟩).2 = ⟨[0x61], [], []⟩ := by
    rw [parserNext_emptyq,
      @readChunk_error (fun _ => false) [0xFF, 0xFF, 0xFF, 0xFF, 0x61] [0x61]
        [] (toStr "Invalid UTF-8") rfl]
  rw [hsnd]
  show (parserNext (fun _ => false) ⟨[0x61], [], []⟩).1 = _
  have hstep : readChunk (fun _ => false) [0x61] [] =
      readChunk (fun _ => false) [] ['a'] := by
    rw [@readChunk_char (fun _ => false) [0x61] [] [] 'a' rfl]
    rfl
  have hrc : readChunk (fun _ => false) [0x61] [] =
      ([.ok (.text, toStr "a", KindM.Kind.symbol)], [], []) := by
    rw [hstep, @readChunk_eof (fun _ => false) [] [] ['a'] rfl]
    rfl
  rw [parserNext_emptyq, hrc]

/-- Claim C3 (amended): an ill-formed UTF-8 sequence in the byte stream
surfaces as an item carrying the I/O error `Invalid UTF-8` on some pull of
`Parser::next`, but iteration does not halt at the error: a later pull may
return another Ok item, as on the byte stream `FF FF FF FF 61` where pull 0
is the error and pull 1 is an Ok item for the text `a`. -/
theorem claim_C3_amended :
    (∀ (lex : Str → Bool) (bytes : List Nat),
        streamHasError bytes = true →
        ∃ n, nthItem lex (initState bytes) n =
          some (.error (toStr "Invalid UTF-8"))) ∧
      nthItem (fun _ => false)
          (initState [0xFF, 0xFF, 0xFF, 0xFF, 0x61]) 1 =
        some (.ok (.text, toStr "a", KindM.Kind.symbol)) :=
  ⟨fun lex bytes hse =>
    parser_error_surfaces lex (bytes.length + 1) bytes (Nat.lt_succ_self _)
      [] hse,
    ffStream_item1⟩

/-- Counterexample to claim C3: on the byte stream `FF FF FF FF 61` pull 0
of `Parser::next` returns the `Invalid UTF-8` error, yet pull 1 returns
another Ok triple, so tokenization does not halt after the error. -/
theorem claim_C3_counterexample :
    nthItem (fun _ => false)
        (initState [0xFF, 0xFF, 0xFF, 0xFF, 0x61]) 0 =
      some (.error (toStr "Invalid UTF-8")) ∧
    nthItem (fun _ => false)
        (initState [0xFF, 0xFF, 0xFF, 0xFF, 0x61]) 1 =
      some (.ok (.text, toStr "a", KindM.Kind.symbol)) :=
  ⟨ffStream_item0, ffStream_item1⟩

end Parse

/-! Verification of the lexicon form-index invariant (`src/lex.rs`). -/

namespace Lex

theorem map_eq_self_mem {f : Char → Char} :
    ∀ {l : Str}, l.map f = l → ∀ c ∈ l, f c = c := by
  intro l
  induction l with
  | nil =>
    intro _ c hc
    cases hc
  | cons a l ih =>
    intro h c hc
    simp only [List.map_cons, List.cons.injEq] at h
    rcases List.mem_cons.mp hc with h0 | h1
    · rw [h0]
      exact h.1
    · exact ih h.2 c h1

theorem map_eq_self_of_mem {f : Char → Char} :
    ∀ {l : Str}, (∀ c ∈ l, f c = c) → l.map f = l := by
  intro l
  induction l with
  | nil =>
    intro _
    rfl
  | cons a l ih =>
    intro h
    simp only [List.map_cons, List.cons.injEq]
    exact ⟨h a (List.mem_cons_self _ _),
      ih fun c hc => h c (List.mem_cons_of_mem _ hc)⟩

theorem charToLower_fixed {m : Nat}
    (hm : 97 ≤ m ∧ m ≤ 122 ∨ 0xE0 ≤ m ∧ m ≤ 0xFE) :
    charToLower (Char.ofNat m) = Char.ofNat m := by
  have ht : (Char.ofNat m).toNat = m := Contr.char_ofNat_toNat (by omega)
  unfold charToLower
  rw [if_neg (fun hc => by
      simp only [Bool.and_eq_true, decide_eq_true_eq, ht] at hc
      omega),
    if_neg (fun hc => by
      simp only [Bool.and_eq_true, decide_eq_true_eq, ht] at hc
      omega)]

theorem charToLower_idem (c : Char) :
    charToLower (charToLower c) = charToLower c := by
  by_cases h1 : (65 ≤ c.toNat && c.toNat ≤ 90) = true
  · have hc : charToLower c = Char.ofNat (c.toNat + 32) := by
      unfold charToLower
      rw [if_pos h1]
    rw [hc]
    apply charToLower_fixed
    simp only [Bool.and_eq_true, decide_eq_true_eq] at h1
    left
    omega
  · by_cases h2 :
        (0xC0 ≤ c.toNat && c.toNat ≤ 0xDE && c.toNat ≠ 0xD7) = true
    · have hc : charToLower c = Char.ofNat (c.toNat + 32) := by
        unfold charToLower
        rw [if_neg h1, if_pos h2]
      rw [hc]
      apply charToLower_fixed
      simp only [Bool.and_eq_true, decide_eq_true_eq] at h2
      right
      omega
    · have hc : charToLower c = c := by
        unfold charToLower
        rw [if_neg h1, if_neg h2]
      rw [hc]
      exact hc

theorem toLowercase_idem (s : Str) :
    toLowercase (toLowercase s) = toLowercase s := by
  unfold toLowercase
  rw [List.map_map]
  exact List.map_congr_left fun a _ => charToLower_idem a

theorem makeWord_eq {F : Str} (hlf : toLowercase F = F)
    (hap : ∀ c ∈ F, c.toNat ≠ 0x2BC ∧ c.toNat ≠ 0x2019 ∧
      c.toNat ≠ 0xFF07) :
    makeWord F = F := by
  have hpt : ∀ c ∈ F, charToLower c = c := map_eq_self_mem hlf
  unfold makeWord
  apply map_eq_self_of_mem
  intro c hc
  by_cases hip : isApostrophe c = true
  · rw [if_pos hip]
    have h27 : c.toNat = 0x27 := by
      have hx := hap c hc
      unfold isApostrophe at hip
      simp only [Bool.or_eq_true, decide_eq_true_eq] at hip
      omega
    rw [← h27, Char.ofNat_toNat]
  · rw [if_neg hip]
    exact hpt c hc

theorem lookupForms_mem :
    ∀ {m : List (Str × List Nat)} {k : Str} {v : List Nat},
      lookupForms m k = some v → (k, v) ∈ m := by
  intro m
  induction m with
  | nil =>
    intro k v h
    cases h
  | cons q rest ih =>
    intro k v h
    obtain ⟨k2, v2⟩ := q
    unfold lookupForms at h
    split at h
    · rename_i heq
      injection h with hv
      rw [← heq, ← hv]
      exact List.mem_cons_self _ _
    · exact List.mem_cons_of_mem _ (ih h)

theorem lookupForms_isSome_of_key :
    ∀ {m : List (Str × List Nat)} {k : Str},
      k ∈ m.map Prod.fst → (lookupForms m k).isSome = true := by
  intro m
  induction m with
  | nil =>
    intro k h
    cases h
  | cons q rest ih =>
    intro k h
    obtain ⟨k2, v2⟩ := q
    unfold lookupForms
    split
    · rfl
    · rename_i hne
      apply ih
      simp only [List.map_cons, List.mem_cons] at h
      rcases h with h0 | h1
      · exact absurd h0.symm hne
      · exact h1

theorem mem_replaceForms :
    ∀ {m : List (Str × List Nat)} {k : Str} {nv : List Nat} {p},
      p ∈ replaceForms m k nv → p ∈ m ∨ p = (k, nv) := by
  intro m
  induction m with
  | nil =>
    intro k nv p hp
    cases hp
  | cons q rest ih =>
    intro k nv p hp
    obtain ⟨k2, v2⟩ := q
    unfold replaceForms at hp
    split at hp
    · rename_i heq
      rcases List.mem_cons.mp hp with h0 | h1
      · right
        rw [h0, heq]
      · left
        exact List.mem_cons_of_mem _ h1
    · rcases List.mem_cons.mp hp with h0 | h1
      · left
        rw [h0]
        exact List.mem_cons_self _ _
      · rcases ih h1 with h2 | h3
        · left
          exact List.mem_cons_of_mem _ h2
        · right
          exact h3

/-- The form-index invariant: every key is lowercase-fixed, every entry is
nonempty, and every index points below the word list at a lexeme holding a
form whose lowercasing is the key. -/
def goodForms (words : List Word.Lexeme)
    (m : List (Str × List Nat)) : Prop :=
  ∀ p ∈ m, toLowercase p.1 = p.1 ∧ p.2 ≠ [] ∧
    ∀ i ∈ p.2, i < words.length ∧
      ∃ f ∈ (words.getD i default).forms, toLowercase f = p.1

/-- The invariant in the middle of inserting the lexeme `w`: indices may
also point at `w`, the lexeme about to be pushed. -/
def goodMid (words : List Word.Lexeme) (w : Word.Lexeme)
    (m : List (Str × List Nat)) : Prop :=
  ∀ p ∈ m, toLowercase p.1 = p.1 ∧ p.2 ≠ [] ∧
    ∀ i ∈ p.2, (i < words.length ∧
        ∃ f ∈ (words.getD i default).forms, toLowercase f = p.1) ∨
      (i = words.length ∧ ∃ f ∈ w.forms, toLowercase f = p.1)

theorem insertForm_good {words : List Word.Lexeme} {w : Word.Lexeme}
    {m : List (Str × List Nat)} (hm : goodMid words w m) {form : Str}
    (hform : form ∈ w.forms) :
    goodMid words w (insertForm words.length m form) := by
  unfold insertForm
  cases hlk : lookupForms m form with
  | some nums =>
    intro p hp
    rcases mem_replaceForms hp with hpm | hpe
    · exact hm p hpm
    · have hold := hm (form, nums) (lookupForms_mem hlk)
      rw [hpe]
      refine ⟨hold.1, by simp, ?_⟩
      intro i hi
      rcases List.mem_append.mp hi with hin | hiN
      · exact hold.2.2 i hin
      · right
        have hie : i = words.length := by simpa using hiN
        exact ⟨hie, form, hform, hold.1⟩
  | none =>
    unfold insertForms
    cases hlk2 : lookupForms m (toLowercase form) with
    | some v =>
      intro p hp
      rcases mem_replaceForms hp with hpm | hpe
      · exact hm p hpm
      · rw [hpe]
        refine ⟨toLowercase_idem form, by simp, ?_⟩
        intro i hi
        have hie : i = words.length := by simpa using hi
        right
        exact ⟨hie, form, hform, rfl⟩
    | none =>
      intro p hp
      rcases List.mem_append.mp hp with hpm | hpe
      · exact hm p hpm
      · have hpe2 : p = (toLowercase form, [words.length]) := by
          simpa using hpe
        rw [hpe2]
        refine ⟨toLowercase_idem form, by simp, ?_⟩
        intro i hi
        have hie : i = words.length := by simpa using hi
        right
        exact ⟨hie, form, hform, rfl⟩

theorem foldl_insertForm_good {words : List Word.Lexeme} {w : Word.Lexeme} :
    ∀ (fs : List Str) (m : List (Str × List Nat)), goodMid words w m →
      (∀ f ∈ fs, f ∈ w.forms) →
      goodMid words w (fs.foldl (insertForm words.length) m) := by
  intro fs
  induction fs with
  | nil =>
    intro m hm _
    exact hm
  | cons f fs ih =>
    intro m hm hfs
    simp only [List.foldl_cons]
    exact ih _ (insertForm_good hm (hfs f (List.mem_cons_self _ _)))
      fun g hg => hfs g (List.mem_cons_of_mem _ hg)

theorem goodForms_insert {lex : Lexicon} {w : Word.Lexeme}
    (h : goodForms lex.words lex.forms) :
    goodForms (insert lex w).words (insert lex w).forms := by
  have hmid : goodMid lex.words w lex.forms := by
    intro p hp
    obtain ⟨h1, h2, h3⟩ := h p hp
    exact ⟨h1, h2, fun i hi => .inl (h3 i hi)⟩
  have hfold := foldl_insertForm_good w.forms lex.forms hmid fun f hf => hf
  intro p hp
  obtain ⟨h1, h2, h3⟩ := hfold p hp
  refine ⟨h1, h2, fun i hi => ?_⟩
  have hwords : (insert lex w).words = lex.words ++ [w] := rfl
  rcases h3 i hi with ⟨hilt, f, hf, hfl⟩ | ⟨hieq, f, hf, hfl⟩
  · constructor
    · rw [hwords, List.length_append]
      simp only [List.length_singleton]
      omega
    · rw [hwords, List.getD_append _ _ _ _ hilt]
      exact ⟨f, hf, hfl⟩
  · constructor
    · rw [hwords, List.length_append]
      simp only [List.length_singleton]
      omega
    · rw [hwords, hieq, List.getD_append_right _ _ _ _ (Nat.le_refl _)]
      simp only [Nat.sub_self]
      exact ⟨f, hf, hfl⟩

theorem mkLexicon_good (ws : List Word.Lexeme) :
    goodForms (mkLexicon ws).words (mkLexicon ws).forms := by
  suffices h : ∀ (vs : List Word.Lexeme) (lex : Lexicon),
      goodForms lex.words lex.forms →
      goodForms (vs.foldl insert lex).words (vs.foldl insert lex).forms by
    exact h ws ⟨[], []⟩ fun p hp => absurd hp (List.not_mem_nil p)
  intro vs
  induction vs with
  | nil =>
    intro lex h
    exact h
  | cons w vs ih =>
    intro lex h
    simp only [List.foldl_cons]
    exact ih _ (goodForms_insert h)

/-- Claim C1 (amended): for every key F of the form index of a lexicon
built by inserts, provided F contains no non-ASCII apostrophe, `contains`
returns true for F, and at least one lexeme returned by `word_entries` has
a form whose lowercasing is F (the form itself need not equal F). -/
theorem claim_C1_amended (ws : List Word.Lexeme) (F : Str)
    (hF : F ∈ formsKeys (mkLexicon ws))
    (hap : ∀ c ∈ F, c.toNat ≠ 0x2BC ∧ c.toNat ≠ 0x2019 ∧
      c.toNat ≠ 0xFF07) :
    contains (mkLexicon ws) F = true ∧
      ∃ e ∈ wordEntries (mkLexicon ws) F,
        ∃ f ∈ e.forms, toLowercase f = F := by
  have hgood := mkLexicon_good ws
  obtain ⟨p, hpmem, hpfst⟩ := List.mem_map.mp hF
  have hkey := hgood p hpmem
  have hlf : toLowercase F = F := hpfst ▸ hkey.1
  have hmw : makeWord F = F := makeWord_eq hlf hap
  have hsome : (lookupForms (mkLexicon ws).forms F).isSome = true :=
    lookupForms_isSome_of_key (by
      rw [← hpfst]
      exact List.mem_map_of_mem _ hpmem)
  constructor
  · unfold contains
    rw [hmw]
    exact hsome
  · cases hlk : lookupForms (mkLexicon ws).forms F with
    | none =>
      rw [hlk] at hsome
      cases hsome
    | some idxs =>
      have hpm : (F, idxs) ∈ (mkLexicon ws).forms := lookupForms_mem hlk
      have hprops := hgood (F, idxs) hpm
      cases idxs with
      | nil => exact absurd rfl hprops.2.1
      | cons i0 irest =>
        obtain ⟨hilt, f, hf, hflow⟩ :=
          hprops.2.2 i0 (List.mem_cons_self _ _)
        refine ⟨(mkLexicon ws).words.getD i0 default, ?_, f, hf, hflow⟩
        unfold wordEntries
        rw [hmw, hlk]
        exact List.mem_map_of_mem _ (List.mem_cons_self _ _)

/-- The one-lexeme list parsed from the line `try:V`. -/
def tryLexList : List Word.Lexeme :=
  match Word.lexemeTryFrom (toStr "try:V") with
  | some lx => [lx]
  | none => []

/-- Witness for claim C1 at the lexicon built from the line `try:V` and
its key `try`. -/
theorem claim_C1_witness :
    ((toStr "try") ∈ formsKeys (mkLexicon tryLexList) ∧
      ∀ c ∈ toStr "try", c.toNat ≠ 0x2BC ∧ c.toNat ≠ 0x2019 ∧
        c.toNat ≠ 0xFF07) ∧
    (contains (mkLexicon tryLexList) (toStr "try") = true ∧
      ∃ e ∈ wordEntries (mkLexicon tryLexList) (toStr "try"),
        ∃ f ∈ e.forms, toLowercase f = toStr "try") :=
  ⟨⟨by decide, by decide⟩,
    claim_C1_amended tryLexList (toStr "try") (by decide) (by decide)⟩

/-- The one-lexeme list parsed from the line `I:Pn`. -/
def pronounILex : List Word.Lexeme :=
  match Word.lexemeTryFrom (toStr "I:Pn") with
  | some lx => [lx]
  | none => []

/-- Counterexample to claim C1: the lexicon built from the lexeme line
`I:Pn` indexes the form `I` under the lowercased key `i`; the key appears
in the forms iterator and `contains` holds for it, and `word_entries`
returns a nonempty list, but no returned lexeme has the key `i` itself
among its forms (the only form is `I`). -/
theorem claim_C1_counterexample :
    (toStr "i") ∈ formsKeys (mkLexicon pronounILex) ∧
      contains (mkLexicon pronounILex) (toStr "i") = true ∧
      wordEntries (mkLexicon pronounILex) (toStr "i") ≠ [] ∧
      ∀ e ∈ wordEntries (mkLexicon pronounILex) (toStr "i"),
        (toStr "i") ∉ e.forms := by decide

end Lex

/-! Embedding of the contraction splitter local to `src/tally.rs`, and the
idempotence of `split_unknown_contractions` (claim C7).  The dictionary
(`word::Dict`, whose source is not part of the crate) is modelled as an
arbitrary membership predicate. -/

namespace Tally

/-- Check for the canonical apostrophe U+2019 (the only apostrophe the
tally splitter matches, byte-exactly). -/
def isCurlyApos (c : Char) : Bool := c.toNat = 0x2019

/-- Number of canonical apostrophes in a word (termination measure
ingredient for the tally work-stack loop). -/
def curlyCount (w : Str) : Nat := (w.filter isCurlyApos).length

/-- Word contraction records (`tally.rs::Contraction`). -/
inductive Con where
  | full (c a b : Str)
  | pre (p ex : Str)
  | suf (s ex : Str)
deriving DecidableEq, Repr

/-- The contraction table local to `tally.rs` (`CONTRACTIONS`), in order. -/
def conTable : List Con :=
  [.full (toStr "ain’t") (toStr "am") (toStr "not"),
   .full (toStr "can’t") (toStr "can") (toStr "not"),
   .full (toStr "shan’t") (toStr "shall") (toStr "not"),
   .full (toStr "won’t") (toStr "will") (toStr "not"),
   .suf (toStr "n’t") (toStr "not"),
   .suf (toStr "’ve") (toStr "have"),
   .suf (toStr "’ll") (toStr "will"),
   .full (toStr "I’m") (toStr "I") (toStr "am"),
   .suf (toStr "’re") (toStr "are"),
   .full (toStr "he’s") (toStr "he") (toStr "is"),
   .full (toStr "it’s") (toStr "it") (toStr "is"),
   .full (toStr "she’s") (toStr "she") (toStr "is"),
   .full (toStr "that’s") (toStr "that") (toStr "is"),
   .full (toStr "there’s") (toStr "there") (toStr "is"),
   .full (toStr "what’s") (toStr "what") (toStr "is"),
   .full (toStr "who’s") (toStr "who") (toStr "is"),
   .full (toStr "’tis") (toStr "it") (toStr "is"),
   .full (toStr "’twas") (toStr "it") (toStr "was"),
   .full (toStr "’twill") (toStr "it") (toStr "will"),
   .suf (toStr "’d") (toStr "would"),
   .suf (toStr "’s") (toStr ""),
   .suf (toStr "’") (toStr ""),
   .pre (toStr "’") (toStr "")]

/-- Model of `str::eq_ignore_ascii_case`. -/
def eqIgnoreAsciiCase (a b : Str) : Bool :=
  a.map toAsciiLower == b.map toAsciiLower

/-- Check if a word uses the contraction (`tally.rs::Contraction::check`). -/
def Con.check (con : Con) (w : Str) : Bool :=
  match con with
  | .full c _ _ => eqIgnoreAsciiCase w c
  | .pre p _ => p.isPrefixOf w
  | .suf s _ => s.isSuffixOf w

/-- Expand the contraction (`tally.rs::Contraction::expand`). -/
def Con.expand (con : Con) (w : Str) : List Str :=
  match con with
  | .full _ a b => [a, b]
  | .pre p ex => if p.isPrefixOf w then [w.drop p.length, ex] else [w]
  | .suf s ex =>
    if s.isSuffixOf w then [w.take (w.length - s.length), ex] else [w]

/-- Split one contraction (`tally.rs::split_contraction`): the expansion of
the first matching table record, or the empty list if none matches. -/
def splitCon (w : Str) : List Str :=
  match conTable.find? (fun con => Con.check con w) with
  | some con => Con.expand con w
  | none => []

theorem curly_toAsciiLower (c : Char) :
    isCurlyApos (toAsciiLower c) = isCurlyApos c := by
  unfold toAsciiLower
  split
  · rename_i hc
    simp only [Bool.and_eq_true, decide_eq_true_eq] at hc
    unfold isCurlyApos
    rw [Contr.char_ofNat_toNat (by omega)]
    rw [decide_eq_false (by omega : ¬(c.toNat + 32 = 0x2019)),
      decide_eq_false (by omega : ¬(c.toNat = 0x2019))]
  · rfl

theorem curlyCount_map_lower :
    ∀ w : Str, curlyCount (w.map toAsciiLower) = curlyCount w := by
  intro w
  induction w with
  | nil => rfl
  | cons c cs ih =>
    simp only [List.map_cons]
    unfold curlyCount at *
    rw [List.filter_cons, List.filter_cons, curly_toAsciiLower]
    cases h : isCurlyApos c
    · simpa using ih
    · simpa using ih

theorem curlyCount_append (a b : Str) :
    curlyCount (a ++ b) = curlyCount a + curlyCount b := by
  simp [curlyCount, List.filter_append]

/-- Side conditions of each tally table record: the pattern contains a
canonical apostrophe, the expansion parts are free of it. -/
def sideCondT : Con → Bool
  | .full c a b =>
    1 ≤ curlyCount c && curlyCount a = 0 && curlyCount b = 0
  | .pre p ex => 1 ≤ curlyCount p && curlyCount ex = 0
  | .suf s ex => 1 ≤ curlyCount s && curlyCount ex = 0

theorem conTable_sideCondT : ∀ con ∈ conTable, sideCondT con = true := by
  decide

theorem expand_bound {con : Con} {w : Str}
    (hside : sideCondT con = true) (hchk : Con.check con w = true) :
    ((Con.expand con w).map fun x => 3 ^ curlyCount x).sum <
      3 ^ curlyCount w := by
  cases con with
  | full c a b =>
    unfold sideCondT at hside
    simp only [Bool.and_eq_true, decide_eq_true_eq] at hside
    obtain ⟨⟨hc, ha⟩, hb⟩ := hside
    unfold Con.check eqIgnoreAsciiCase at hchk
    have heq : w.map toAsciiLower = c.map toAsciiLower := by
      simpa using hchk
    have hcw : curlyCount w = curlyCount c := by
      rw [← curlyCount_map_lower w, heq, curlyCount_map_lower]
    unfold Con.expand
    simp only [List.map_cons, List.map_nil, List.sum_cons, List.sum_nil,
      ha, hb, pow_zero]
    have h3 : 3 ^ 1 ≤ 3 ^ curlyCount w := Contr.pow3_le_pow3 (by omega)
    have h31 : (3 : Nat) ^ 1 = 3 := by norm_num
    omega
  | pre p ex =>
    unfold sideCondT at hside
    simp only [Bool.and_eq_true, decide_eq_true_eq] at hside
    obtain ⟨hp, hex⟩ := hside
    unfold Con.check at hchk
    simp only [] at hchk
    obtain ⟨t, ht⟩ := List.isPrefixOf_iff_prefix.mp hchk
    unfold Con.expand
    simp only []
    rw [if_pos hchk]
    simp only [List.map_cons, List.map_nil, List.sum_cons, List.sum_nil,
      hex, pow_zero]
    have hdrop : w.drop p.length = t := by
      rw [← ht]
      simp
    have hcnt : curlyCount w = curlyCount p + curlyCount t := by
      rw [← ht, curlyCount_append]
    rw [hdrop]
    have hb1 : 3 ^ curlyCount t * 3 ≤ 3 ^ curlyCount w := by
      calc 3 ^ curlyCount t * 3 = 3 ^ (curlyCount t + 1) := by
            rw [Nat.pow_succ]
        _ ≤ 3 ^ curlyCount w := Contr.pow3_le_pow3 (by omega)
    have hpos : 1 ≤ 3 ^ curlyCount t := Nat.one_le_pow _ _ (by omega)
    omega
  | suf s ex =>
    unfold sideCondT at hside
    simp only [Bool.and_eq_true, decide_eq_true_eq] at hside
    obtain ⟨hs, hex⟩ := hside
    unfold Con.check at hchk
    simp only [] at hchk
    obtain ⟨t, ht⟩ := List.isSuffixOf_iff_suffix.mp hchk
    unfold Con.expand
    simp only []
    rw [if_pos hchk]
    simp only [List.map_cons, List.map_nil, List.sum_cons, List.sum_nil,
      hex, pow_zero]
    have htake : w.take (w.length - s.length) = t := by
      rw [← ht]
      have hlen : (t ++ s).length - s.length = t.length := by simp
      rw [hlen, List.take_left]
    have hcnt : curlyCount w = curlyCount t + curlyCount s := by
      rw [← ht, curlyCount_append]
    rw [htake]
    have hb1 : 3 ^ curlyCount t * 3 ≤ 3 ^ curlyCount w := by
      calc 3 ^ curlyCount t * 3 = 3 ^ (curlyCount t + 1) := by
            rw [Nat.pow_succ]
        _ ≤ 3 ^ curlyCount w := Contr.pow3_le_pow3 (by omega)
    have hpos : 1 ≤ 3 ^ curlyCount t := Nat.one_le_pow _ _ (by omega)
    omega

theorem splitCon_bound {w : Str} {ws : List Str} (h : splitCon w = ws)
    (hne : ws ≠ []) :
    (ws.map fun x => 3 ^ curlyCount x).sum < 3 ^ curlyCount w := by
  unfold splitCon at h
  cases hf : conTable.find? (fun con => Con.check con w) with
  | none =>
    rw [hf] at h
    exact absurd h.symm hne
  | some con =>
    rw [hf] at h
    rw [← h]
    have hchk := List.find?_some hf
    exact expand_bound (conTable_sideCondT con (List.mem_of_find?_eq_some hf))
      hchk

/-- Termination measure of the tally work stack. -/
def phiT (stack : List Str) : Nat :=
  (stack.map fun x => 3 ^ curlyCount x).sum

/-- The work-stack loop of `tally.rs::split_contractions`: pop a word, emit
it when no table record matches, otherwise push the expansion. -/
def splitLoopT (stack ex : List Str) : List Str :=
  match stack with
  | [] => ex
  | w :: rest =>
    match h : splitCon w with
    | [] => splitLoopT rest (ex ++ [w])
    | y :: ys => splitLoopT ((y :: ys).reverse ++ rest) ex
termination_by phiT stack
decreasing_by
  · simp only [phiT, List.map_cons, List.sum_cons]
    have h3 : 0 < 3 ^ curlyCount w := Nat.pos_pow_of_pos _ (by omega)
    omega
  · have hb := splitCon_bound h (by simp)
    simp only [phiT, List.map_append, List.sum_append, List.map_reverse,
      List.sum_reverse, List.map_cons, List.sum_cons]
    simp only [List.map_cons, List.sum_cons] at hb
    omega

/-- Split contractions (`tally.rs::split_contractions`). -/
def splitContractions (w : Str) : List Str := splitLoopT [w] []

theorem splitLoopT_nil {ex : List Str} : splitLoopT [] ex = ex := by
  rw [splitLoopT]

theorem splitLoopT_cons_nil {w : Str} {rest ex : List Str}
    (h : splitCon w = []) :
    splitLoopT (w :: rest) ex = splitLoopT rest (ex ++ [w]) := by
  rw [splitLoopT]
  split
  · rfl
  · rename_i y ys hys
    rw [h] at hys
    cases hys

theorem splitLoopT_cons_exp {w y : Str} {ys rest ex : List Str}
    (h : splitCon w = y :: ys) :
    splitLoopT (w :: rest) ex =
      splitLoopT ((y :: ys).reverse ++ rest) ex := by
  rw [splitLoopT]
  split
  · rename_i hys
    rw [h] at hys
    cases hys
  · rename_i y2 ys2 hys
    rw [h] at hys
    cases hys
    rfl

theorem splitLoopT_fixed :
    ∀ (N : Nat) (stack ex : List Str), phiT stack < N →
      (∀ x ∈ ex, splitCon x = []) →
      ∀ y ∈ splitLoopT stack ex, splitCon y = [] := by
  intro N
  induction N with
  | zero =>
    intro stack ex h
    exact absurd h (Nat.not_lt_zero _)
  | succ N ih =>
    intro stack ex hlt hex y hy
    cases stack with
    | nil =>
      rw [splitLoopT_nil] at hy
      exact hex y hy
    | cons w rest =>
      have hpos : 0 < 3 ^ curlyCount w := Nat.pos_pow_of_pos _ (by omega)
      have hphi : phiT (w :: rest) = 3 ^ curlyCount w + phiT rest := by
        simp [phiT]
      cases hc : splitCon w with
      | nil =>
        rw [splitLoopT_cons_nil hc] at hy
        refine ih rest (ex ++ [w]) (by omega) ?_ y hy
        intro x hx
        rcases List.mem_append.mp hx with h0 | h1
        · exact hex x h0
        · rw [List.mem_singleton.mp h1]
          exact hc
      | cons z zs =>
        rw [splitLoopT_cons_exp hc] at hy
        have hb := splitCon_bound hc (by simp)
        have hphi2 : phiT ((z :: zs).reverse ++ rest) =
            ((z :: zs).map fun x => 3 ^ curlyCount x).sum + phiT rest := by
          simp only [phiT, List.map_append, List.map_reverse,
            List.sum_append, List.sum_reverse, List.map_cons, List.sum_cons]
        exact ih _ ex (by omega) hex y hy

theorem splitContractions_fixed {w : Str} :
    ∀ y ∈ splitContractions w, splitCon y = [] := by
  intro y hy
  exact splitLoopT_fixed (phiT [w] + 1) [w] [] (Nat.lt_succ_self _)
    (fun x hx => absurd hx (List.not_mem_nil x)) y hy

theorem splitContractions_of_fixed {w : Str} (h : splitCon w = []) :
    splitContractions w = [w] := by
  unfold splitContractions
  rw [splitLoopT_cons_nil h, splitLoopT_nil]
  rfl

/-- The filter of `tally.rs::split_unknown_contractions`: the stored word
is unknown to the dictionary and contains a canonical apostrophe. -/
def qualifies (dict : Str → Bool) (we : WordEntry) : Bool :=
  !dict we.word && we.word.any isCurlyApos

/-- One step of the key loop of `split_unknown_contractions`: remove the
entry and re-tally the split of its word with its seen count. -/
def processKey (dict : Str → Bool) (t : WordTally) (k : Str) : WordTally :=
  match lookup t k with
  | none => t
  | some we =>
    (splitContractions we.word).foldl
      (fun s w => tallyWord s w we.seen) (removeKey t k)

/-- Split contractions not in the dictionary
(`tally.rs::WordTally::split_unknown_contractions`): collect the
qualifying keys, then remove and re-tally each. -/
def splitUnknownContractions (dict : Str → Bool) (t : WordTally) :
    WordTally :=
  ((t.filter fun p => qualifies dict p.2).map Prod.fst).foldl
    (processKey dict) t

theorem lookup_some_mem :
    ∀ {t : WordTally} {k : Str} {v : WordEntry},
      lookup t k = some v → (k, v) ∈ t := by
  intro t
  induction t with
  | nil =>
    intro k v h
    cases h
  | cons q rest ih =>
    intro k v h
    obtain ⟨k0, v0⟩ := q
    unfold lookup at h
    split at h
    · rename_i heq
      injection h with hv
      rw [← heq, ← hv]
      exact List.mem_cons_self _ _
    · exact List.mem_cons_of_mem _ (ih h)

theorem lookup_none_keys :
    ∀ {t : WordTally} {k : Str}, lookup t k = none →
      k ∉ t.map Prod.fst := by
  intro t
  induction t with
  | nil =>
    intro k _ hk
    cases hk
  | cons q rest ih =>
    intro k h hk
    obtain ⟨k0, v0⟩ := q
    unfold lookup at h
    split at h
    · cases h
    · rename_i hne
      rcases List.mem_cons.mp hk with h0 | h1
      · exact hne h0.symm
      · exact ih h h1

theorem mem_lookup_of_nodup :
    ∀ {t : WordTally} {k : Str} {v : WordEntry},
      (t.map Prod.fst).Nodup → (k, v) ∈ t → lookup t k = some v := by
  intro t
  induction t with
  | nil =>
    intro k v _ hm
    cases hm
  | cons q rest ih =>
    intro k v hnd hm
    obtain ⟨k0, v0⟩ := q
    simp only [List.map_cons, List.nodup_cons] at hnd
    obtain ⟨hk0, hndr⟩ := hnd
    rcases List.mem_cons.mp hm with h0 | h1
    · injection h0 with h2 h3
      unfold lookup
      rw [if_pos h2.symm, h3]
    · unfold lookup
      split
      · rename_i heq
        exfalso
        apply hk0
        rw [heq]
        exact List.mem_map_of_mem _ h1
      · exact ih hndr h1

theorem updateAt_map_fst (t : WordTally) (k : Str) (v : WordEntry) :
    (updateAt t k v).map Prod.fst = t.map Prod.fst := by
  induction t with
  | nil => rfl
  | cons q rest ih =>
    obtain ⟨k0, v0⟩ := q
    unfold updateAt
    split
    · rename_i heq
      simp only [List.map_cons]
    · simp only [List.map_cons]
      rw [ih]

theorem mem_updateAt_or :
    ∀ {t : WordTally} {k : Str} {v : WordEntry} {p},
      p ∈ updateAt t k v → p ∈ t ∨ p = (k, v) := by
  intro t
  induction t with
  | nil =>
    intro k v p hp
    cases hp
  | cons q rest ih =>
    intro k v p hp
    obtain ⟨k0, v0⟩ := q
    unfold updateAt at hp
    split at hp
    · rename_i heq
      rcases List.mem_cons.mp hp with h0 | h1
      · right
        rw [h0, heq]
      · left
        exact List.mem_cons_of_mem _ h1
    · rcases List.mem_cons.mp hp with h0 | h1
      · left
        rw [h0]
        exact List.mem_cons_self _ _
      · rcases ih h1 with h2 | h3
        · left
          exact List.mem_cons_of_mem _ h2
        · right
          exact h3

theorem removeKey_sublist :
    ∀ (t : WordTally) (k : Str), List.Sublist (removeKey t k) t := by
  intro t
  induction t with
  | nil =>
    intro k
    exact List.Sublist.refl _
  | cons q rest ih =>
    intro k
    obtain ⟨k0, v0⟩ := q
    unfold removeKey
    split
    · exact List.sublist_cons_self _ _
    · exact List.Sublist.cons₂ _ (ih k)

theorem removeKey_nodup {t : WordTally} {k : Str}
    (h : (t.map Prod.fst).Nodup) :
    ((removeKey t k).map Prod.fst).Nodup :=
  List.Nodup.sublist (List.Sublist.map Prod.fst (removeKey_sublist t k)) h

theorem mem_removeKey_nodup :
    ∀ {t : WordTally} {k : Str} {p}, (t.map Prod.fst).Nodup →
      p ∈ removeKey t k → p ∈ t ∧ p.1 ≠ k := by
  intro t
  induction t with
  | nil =>
    intro k p _ hp
    cases hp
  | cons q rest ih =>
    intro k p hnd hp
    obtain ⟨k0, v0⟩ := q
    simp only [List.map_cons, List.nodup_cons] at hnd
    obtain ⟨hk0, hndr⟩ := hnd
    unfold removeKey at hp
    split at hp
    · rename_i heq
      refine ⟨List.mem_cons_of_mem _ hp, ?_⟩
      intro hpk
      apply hk0
      rw [heq, ← hpk]
      exact List.mem_map_of_mem _ hp
    · rename_i hne
      rcases List.mem_cons.mp hp with h0 | h1
      · rw [h0]
        exact ⟨List.mem_cons_self _ _, hne⟩
      · obtain ⟨hm, hnk⟩ := ih hndr h1
        exact ⟨List.mem_cons_of_mem _ hm, hnk⟩

theorem lookup_removeKey_self {t : WordTally} {k : Str}
    (h : (t.map Prod.fst).Nodup) :
    lookup (removeKey t k) k = none := by
  cases hl : lookup (removeKey t k) k with
  | none => rfl
  | some v =>
    have hm := lookup_some_mem hl
    exact absurd rfl (mem_removeKey_nodup h hm).2

theorem lookup_removeKey_other :
    ∀ {t : WordTally} {k k' : Str}, k' ≠ k →
      lookup (removeKey t k) k' = lookup t k' := by
  intro t
  induction t with
  | nil =>
    intro k k' _
    rfl
  | cons q rest ih =>
    intro k k' h
    obtain ⟨k0, v0⟩ := q
    by_cases h0 : k0 = k
    · have hr : removeKey ((k0, v0) :: rest) k = rest := by
        simp [removeKey, h0]
      rw [hr]
      have hne : ¬(k0 = k') := fun he => h (by rw [← he]; exact h0)
      simp [lookup, hne]
    · have hr : removeKey ((k0, v0) :: rest) k =
          (k0, v0) :: removeKey rest k := by
        simp [removeKey, h0]
      rw [hr]
      by_cases h1 : k0 = k'
      · simp [lookup, h1]
      · simp only [lookup, if_neg h1]
        exact ih h

theorem lookup_append_none {a b : WordTally} {k : Str}
    (h : lookup a k = none) : lookup (a ++ b) k = lookup b k := by
  induction a with
  | nil => rfl
  | cons q rest ih =>
    obtain ⟨k0, v0⟩ := q
    unfold lookup at h
    split at h
    · cases h
    · rename_i hne
      simp only [List.cons_append, lookup, if_neg hne]
      exact ih h

theorem tallyWord_step_none {t : WordTally} {w : Str} {c : Nat}
    (h : wordEntryTryFrom w = none) : tallyWord t w c = t := by
  unfold tallyWord
  rw [h]

theorem tallyWord_fresh {t : WordTally} {w : Str} {c : Nat} {we : WordEntry}
    (htf : wordEntryTryFrom w = some we)
    (hl : lookup t (toLowercase we.word) = none) :
    tallyWord t w c =
      t ++ [(toLowercase we.word, ⟨c, we.word, we.cat⟩)] := by
  simp [tallyWord, htf, hl]

theorem tallyWord_seen_lt {t : WordTally} {w : Str} {c : Nat}
    {we e : WordEntry} (htf : wordEntryTryFrom w = some we)
    (hl : lookup t (toLowercase we.word) = some e)
    (hcc : countUppercase we.word < countUppercase e.word) :
    tallyWord t w c =
      updateAt t (toLowercase we.word) ⟨e.seen + c, we.word, we.cat⟩ := by
  simp [tallyWord, htf, hl, hcc]

theorem tallyWord_seen_ge {t : WordTally} {w : Str} {c : Nat}
    {we e : WordEntry} (htf : wordEntryTryFrom w = some we)
    (hl : lookup t (toLowercase we.word) = some e)
    (hcc : ¬(countUppercase we.word < countUppercase e.word)) :
    tallyWord t w c =
      updateAt t (toLowercase we.word) ⟨e.seen + c, e.word, e.cat⟩ := by
  simp [tallyWord, htf, hl, hcc]

theorem tallyWord_nodup {t : WordTally} {w : Str} {c : Nat}
    (h : (t.map Prod.fst).Nodup) :
    ((tallyWord t w c).map Prod.fst).Nodup := by
  cases htf : wordEntryTryFrom w with
  | none =>
    rw [tallyWord_step_none htf]
    exact h
  | some we =>
    cases hl : lookup t (toLowercase we.word) with
    | none =>
      rw [tallyWord_fresh htf hl, List.map_append]
      refine List.Nodup.append h (List.nodup_singleton _) ?_
      intro a ha hb
      have hak : a = toLowercase we.word := by simpa using hb
      apply lookup_none_keys hl
      rw [← hak]
      exact ha
    | some e =>
      by_cases hcc : countUppercase we.word < countUppercase e.word
      · rw [tallyWord_seen_lt htf hl hcc, updateAt_map_fst]
        exact h
      · rw [tallyWord_seen_ge htf hl hcc, updateAt_map_fst]
        exact h

/-- A tally entry that `split_unknown_contractions` re-creates verbatim:
the key is the lowercased word, the word is a fixed point of the splitter,
and `WordEntry::try_from` re-derives the word and category. -/
def entryGood (p : Str × WordEntry) : Prop :=
  p.1 = toLowercase p.2.word ∧ splitCon p.2.word = [] ∧
    wordEntryTryFrom p.2.word = some ⟨1, p.2.word, p.2.cat⟩

/-- Invariant of the key loop: distinct keys, and every qualifying entry
is either re-creatable or has its key in the remaining key list. -/
def stateInv (dict : Str → Bool) (R : List Str) (s : WordTally) : Prop :=
  (s.map Prod.fst).Nodup ∧
    ∀ p ∈ s, qualifies dict p.2 = true → entryGood p ∨ p.1 ∈ R

theorem tryFrom_fields {w : Str} {we : WordEntry}
    (h : wordEntryTryFrom w = some we) :
    we.seen = 1 ∧ we.word = w ∧ we.cat = categoryFrom w ∧
      isWordValid w = true := by
  unfold wordEntryTryFrom at h
  split at h
  · rename_i hv
    injection h with h1
    rw [← h1]
    exact ⟨rfl, rfl, rfl, hv⟩
  · cases h

theorem entryGood_new {w : Str} {we : WordEntry} {c : Nat}
    (htf : wordEntryTryFrom w = some we) (hw : splitCon w = []) :
    entryGood (toLowercase we.word, ⟨c, we.word, we.cat⟩) := by
  obtain ⟨h1, h2, h3, hv⟩ := tryFrom_fields htf
  refine ⟨rfl, ?_, ?_⟩
  · show splitCon we.word = []
    rw [h2]
    exact hw
  · show wordEntryTryFrom we.word = some ⟨1, we.word, we.cat⟩
    rw [h2, h3]
    unfold wordEntryTryFrom
    rw [if_pos hv]
    rfl

theorem tallyWord_inv {dict : Str → Bool} {R : List Str} {s : WordTally}
    (hs : stateInv dict R s) {w : Str} {c : Nat}
    (hw : splitCon w = []) : stateInv dict R (tallyWord s w c) := by
  obtain ⟨hnd, hmem⟩ := hs
  refine ⟨tallyWord_nodup hnd, ?_⟩
  cases htf : wordEntryTryFrom w with
  | none =>
    rw [tallyWord_step_none htf]
    exact hmem
  | some we =>
    cases hl : lookup s (toLowercase we.word) with
    | none =>
      rw [tallyWord_fresh htf hl]
      intro p hp hq
      rcases List.mem_append.mp hp with h0 | h1
      · exact hmem p h0 hq
      · left
        have hp2 : p = (toLowercase we.word, ⟨c, we.word, we.cat⟩) := by
          simpa using h1
        rw [hp2]
        exact entryGood_new htf hw
    | some e =>
      have hem : (toLowercase we.word, e) ∈ s := lookup_some_mem hl
      by_cases hcc : countUppercase we.word < countUppercase e.word
      · rw [tallyWord_seen_lt htf hl hcc]
        intro p hp hq
        rcases mem_updateAt_or hp with h0 | h1
        · exact hmem p h0 hq
        · left
          rw [h1]
          exact entryGood_new htf hw
      · rw [tallyWord_seen_ge htf hl hcc]
        intro p hp hq
        rcases mem_updateAt_or hp with h0 | h1
        · exact hmem p h0 hq
        · rw [h1] at hq ⊢
          have hqe : qualifies dict e = true := hq
          rcases hmem (toLowercase we.word, e) hem hqe with hg | hr
          · left
            exact ⟨hg.1, hg.2.1, hg.2.2⟩
          · right
            exact hr

theorem foldl_tallyWord_inv {dict : Str → Bool} {R : List Str} {c : Nat} :
    ∀ (ps : List Str) {s : WordTally}, stateInv dict R s →
      (∀ x ∈ ps, splitCon x = []) →
      stateInv dict R (ps.foldl (fun s2 w => tallyWord s2 w c) s) := by
  intro ps
  induction ps with
  | nil =>
    intro s hs _
    exact hs
  | cons x ps ih =>
    intro s hs hps
    simp only [List.foldl_cons]
    exact ih (tallyWord_inv hs (hps x (List.mem_cons_self _ _)))
      fun y hy => hps y (List.mem_cons_of_mem _ hy)

theorem processKey_inv {dict : Str → Bool} {k : Str} {R : List Str}
    {s : WordTally} (hs : stateInv dict (k :: R) s) :
    stateInv dict R (processKey dict s k) := by
  obtain ⟨hnd, hmem⟩ := hs
  unfold processKey
  cases hl : lookup s k with
  | none =>
    refine ⟨hnd, ?_⟩
    intro p hp hq
    rcases hmem p hp hq with hg | hr
    · left
      exact hg
    · right
      rcases List.mem_cons.mp hr with h0 | h1
      · exfalso
        apply lookup_none_keys hl
        rw [← h0]
        exact List.mem_map_of_mem _ hp
      · exact h1
  | some we =>
    apply foldl_tallyWord_inv _ ?_ fun x hx => splitContractions_fixed x hx
    refine ⟨removeKey_nodup hnd, ?_⟩
    intro p hp hq
    obtain ⟨hps, hpk⟩ := mem_removeKey_nodup hnd hp
    rcases hmem p hps hq with hg | hr
    · left
      exact hg
    · right
      rcases List.mem_cons.mp hr with h0 | h1
      · exact absurd h0 hpk
      · exact h1

theorem foldl_processKey_inv {dict : Str → Bool} :
    ∀ (K : List Str) {s : WordTally}, stateInv dict K s →
      stateInv dict [] (K.foldl (processKey dict) s) := by
  intro K
  induction K with
  | nil =>
    intro s hs
    exact hs
  | cons k rest ih =>
    intro s hs
    simp only [List.foldl_cons]
    exact ih (processKey_inv hs)

theorem splitUC_inv {dict : Str → Bool} {t : WordTally}
    (hnd : (t.map Prod.fst).Nodup) :
    stateInv dict [] (splitUnknownContractions dict t) := by
  unfold splitUnknownContractions
  apply foldl_processKey_inv
  refine ⟨hnd, ?_⟩
  intro p hp hq
  right
  exact List.mem_map_of_mem _ (List.mem_filter.mpr ⟨hp, hq⟩)

theorem processKey_id {dict : Str → Bool} {s : WordTally} {k : Str}
    (hs : stateInv dict [] s)
    (hq : ∀ we, lookup s k = some we → qualifies dict we = true) :
    (∀ key, lookup (processKey dict s k) key = lookup s key) ∧
      stateInv dict [] (processKey dict s k) := by
  obtain ⟨hnd, hmem⟩ := hs
  unfold processKey
  cases hl : lookup s k with
  | none => exact ⟨fun key => rfl, ⟨hnd, hmem⟩⟩
  | some we =>
    simp only []
    have hqw := hq we hl
    have hg : entryGood (k, we) := by
      rcases hmem (k, we) (lookup_some_mem hl) hqw with hg | hr
      · exact hg
      · cases hr
    obtain ⟨hg1, hg2, hg3⟩ := hg
    have hsplit : splitContractions we.word = [we.word] :=
      splitContractions_of_fixed hg2
    rw [hsplit]
    simp only [List.foldl_cons, List.foldl_nil]
    have hl2 : lookup (removeKey s k) (toLowercase we.word) = none := by
      rw [← hg1]
      exact lookup_removeKey_self hnd
    have hfresh : tallyWord (removeKey s k) we.word we.seen =
        removeKey s k ++ [(toLowercase we.word,
          ⟨we.seen, we.word, we.cat⟩)] :=
      @tallyWord_fresh (removeKey s k) we.word we.seen
        ⟨1, we.word, we.cat⟩ hg3 hl2
    have heta : (⟨we.seen, we.word, we.cat⟩ : WordEntry) = we := rfl
    rw [hfresh, heta, ← hg1]
    constructor
    · intro key
      by_cases hk : key = k
      · subst hk
        rw [lookup_append_none (lookup_removeKey_self hnd), hl]
        simp [lookup]
      · rw [lookup_append_single_other hk, lookup_removeKey_other hk]
    · constructor
      · rw [List.map_append]
        refine List.Nodup.append (removeKey_nodup hnd)
          (List.nodup_singleton _) ?_
        intro a ha hb
        have hak : a = k := by simpa using hb
        obtain ⟨p, hpm, hpa⟩ := List.mem_map.mp ha
        have := (mem_removeKey_nodup hnd hpm).2
        rw [hpa, hak] at this
        exact this rfl
      · intro p hp hq2
        left
        rcases List.mem_append.mp hp with h0 | h1
        · have hps := (mem_removeKey_nodup hnd h0).1
          rcases hmem p hps hq2 with hg | hr
          · exact hg
          · cases hr
        · have hp2 : p = (k, we) := by simpa using h1
          rw [hp2]
          exact ⟨hg1, hg2, hg3⟩

theorem foldl_processKey_id {dict : Str → Bool} {t2 : WordTally} :
    ∀ (K : List Str) (s : WordTally), stateInv dict [] s →
      (∀ key, lookup s key = lookup t2 key) →
      (∀ k ∈ K, ∀ we, lookup t2 k = some we →
        qualifies dict we = true) →
      ∀ key, lookup (K.foldl (processKey dict) s) key = lookup t2 key := by
  intro K
  induction K with
  | nil =>
    intro s _ hid _ key
    exact hid key
  | cons k rest ih =>
    intro s hs hid hK
    simp only [List.foldl_cons]
    have hq : ∀ we, lookup s k = some we → qualifies dict we = true := by
      intro we hwe
      refine hK k (List.mem_cons_self _ _) we ?_
      rw [← hid k]
      exact hwe
    obtain ⟨hid2, hinv2⟩ := processKey_id hs hq
    exact ih _ hinv2 (fun key => (hid2 key).trans (hid key))
      fun k2 hk2 => hK k2 (List.mem_cons_of_mem _ hk2)

theorem splitUC_id {dict : Str → Bool} {t2 : WordTally}
    (hinv : stateInv dict [] t2) :
    ∀ key, lookup (splitUnknownContractions dict t2) key =
      lookup t2 key := by
  intro key
  unfold splitUnknownContractions
  apply foldl_processKey_id _ _ hinv fun _ => rfl
  intro k hk we hwe
  obtain ⟨p, hpf, hpk⟩ := List.mem_map.mp hk
  obtain ⟨hpm, hpq⟩ := List.mem_filter.mp hpf
  have hl2 : lookup t2 k = some p.2 := by
    refine mem_lookup_of_nodup hinv.1 ?_
    rw [← hpk]
    exact hpm
  rw [hwe] at hl2
  have hwp : we = p.2 := Option.some.inj hl2
  rw [hwp]
  exact hpq

/-- Claim C7: `split_unknown_contractions` is idempotent: for every tally
state with distinct keys and every dictionary predicate, applying the pass
twice gives the same map as applying it once, entry for entry (same keys,
words, seen counts and categories, witnessed by every lookup agreeing). -/
theorem claim_C7 (dict : Str → Bool) (t : WordTally)
    (hnd : (t.map Prod.fst).Nodup) :
    ∀ key, lookup (splitUnknownContractions dict
        (splitUnknownContractions dict t)) key =
      lookup (splitUnknownContractions dict t) key :=
  fun key => splitUC_id (splitUC_inv hnd) key

/-- A one-entry tally holding the contraction `don’t`. -/
def tally0 : WordTally :=
  [(toStr "don’t", ⟨2, toStr "don’t", Category.unknown⟩)]

/-- Witness for claim C7 at a one-entry tally holding `don’t`, the empty
dictionary, and the key `not` produced by the split. -/
theorem claim_C7_witness :
    (tally0.map Prod.fst).Nodup ∧
      lookup (splitUnknownContractions (fun _ => false)
          (splitUnknownContractions (fun _ => false) tally0))
        (toStr "not") =
      lookup (splitUnknownContractions (fun _ => false) tally0)
        (toStr "not") :=
  ⟨by decide, claim_C7 (fun _ => false) tally0 (by decide) (toStr "not")⟩

end Tally

end Booky
